import Mathlib

/-!
# Shallow embedding of the dojo workspace assistant

This file embeds the core state and algorithms of the dojo tool
(`lib/context.py`, `lib/navigator.py`, `lib/health.py`, `lib/migrate.py`)
as Lean definitions and proves properties of them.

Conventions:
- Python dicts parsed from JSON become structures or association lists.
- A fallible Python operation (reading/parsing a file) is modelled by an
  `Except`/`Option` body; a `try/except: pass` wrapper becomes a total
  function that returns the unchanged state on the error branch.
- Machine strings are Lean `String`s / `List Char`.
-/

namespace Dojo

/-! ## History store (`context.py`)

The persisted `history.json` document: `recent`, `visits`,
`command_history`, `favorites` (`DojoContext.__init__`, `log_visit`,
`log_command`).  A file whose text does not parse as JSON is the
`corrupt` state. -/

structure VisitEntry where
  name : String
  ptype : String
  timestamp : String
  path : String
deriving DecidableEq, Repr

structure CommandEntry where
  command : String
  args : List String
  timestamp : String
  project : Option String
deriving DecidableEq, Repr

structure HistoryData where
  recent : List VisitEntry
  visits : List (String × Nat)
  command_history : List CommandEntry
  favorites : List String
deriving DecidableEq, Repr

/-- The initial history document written by `DojoContext.__init__` when the
file is absent (it has no `favorites` key; `data.get` defaults it to `[]`). -/
def emptyHistory : HistoryData := ⟨[], [], [], []⟩

/-- State of the history file on disk: either parses to a record or is
corrupt / non-JSON. -/
inductive HistoryFile
  | corrupt
  | ok (data : HistoryData)
deriving DecidableEq, Repr

/-- `visits.get(name, 0)` on the parsed JSON dict. -/
def dictGet (d : List (String × Nat)) (k : String) : Nat :=
  match d.find? (fun p => p.1 == k) with
  | some p => p.2
  | none => 0

/-- `visits[name] = visits.get(name, 0) + 1` on the parsed JSON dict
(updating an existing key in place, appending a new one). -/
def dictBump (d : List (String × Nat)) (k : String) : List (String × Nat) :=
  if d.any (fun p => p.1 == k) then
    d.map (fun p => if p.1 == k then (p.1, p.2 + 1) else p)
  else
    d ++ [(k, 1)]

/-- The last `n` elements of a list (Python `l[-n:]`). -/
def lastN (n : Nat) (l : List α) : List α := l.drop (l.length - n)

/-- The in-memory update performed by `DojoContext.log_visit` once the file
has parsed: bump the visit counter, drop any old entry with the same name,
insert the new entry at the front and keep only the first 20. -/
def visitUpdate (name ptype now path : String) (d : HistoryData) : HistoryData :=
  { d with
    visits := dictBump d.visits name
    recent := (⟨name, ptype, now, path⟩ :: d.recent.filter (fun r => r.name != name)).take 20 }

/-- The in-memory update performed by `DojoContext.log_command` once the file
has parsed: append the entry and keep the last 100. -/
def commandUpdate (command : String) (args : List String) (now : String)
    (project : Option String) (d : HistoryData) : HistoryData :=
  { d with
    command_history := lastN 100 (d.command_history ++ [⟨command, args, now, project⟩]) }

/-- Body of `log_visit` without its `try/except`: `json.loads` raises on a
corrupt file, otherwise the updated document is written back. -/
def logVisitBody (name ptype now path : String) (f : HistoryFile) :
    Except String HistoryFile :=
  match f with
  | .corrupt => .error "json.loads"
  | .ok d => .ok (.ok (visitUpdate name ptype now path d))

/-- `DojoContext.log_visit`: a `None` project name returns immediately; the
body runs under `try/except Exception: pass`, so an exception leaves the
file untouched and never propagates. -/
def log_visit (projectName : Option String) (ptype now path : String)
    (f : HistoryFile) : HistoryFile :=
  match projectName with
  | none => f
  | some name =>
    match logVisitBody name ptype now path f with
    | .error _ => f
    | .ok f' => f'

/-- Body of `log_command` without its `try/except`. -/
def logCommandBody (command : String) (args : List String) (now : String)
    (project : Option String) (f : HistoryFile) : Except String HistoryFile :=
  match f with
  | .corrupt => .error "json.loads"
  | .ok d => .ok (.ok (commandUpdate command args now project d))

/-- `DojoContext.log_command`, with its `try/except Exception: pass`. -/
def log_command (command : String) (args : List String) (now : String)
    (project : Option String) (f : HistoryFile) : HistoryFile :=
  match logCommandBody command args now project f with
  | .error _ => f
  | .ok f' => f'

/-! ## Favorites (`navigator.py` / spec §4.3) -/

/-- Modelled from the spec: `getFavorites` is called from `navigator.py` but
its definition is not under `src/`; per §3 it reads the `favorites` array of
the history document. -/
def get_favorites (d : HistoryData) : List String := d.favorites

/-- Modelled from the spec: `addFavorite(name)` is called from
`navigator.py` but its definition is not under `src/`; per §4.3 it has set
semantics and adding an existing favorite is a no-op returning
"already present" (the `false` component). -/
def add_favorite (name : String) (d : HistoryData) : HistoryData × Bool :=
  if name ∈ d.favorites then (d, false)
  else ({ d with favorites := d.favorites ++ [name] }, true)

/-- `Navigator.toggle_favorite`: inspect membership first; if present,
rewrite the document with every occurrence of the name filtered out of
`favorites`; otherwise add via `add_favorite`. -/
def toggle_favorite (name : String) (d : HistoryData) : HistoryData :=
  if name ∈ get_favorites d then
    { d with favorites := d.favorites.filter (fun f => f != name) }
  else (add_favorite name d).1

/-! ## `goto` selection (`Navigator.goto`)

With multiple matches the user's reply is parsed with `int(choice)`; a
parse failure is caught and reported as "Invalid choice"; a successfully
parsed index is used only when `0 <= idx < len(matches)` — there is no
`else` branch, so an out-of-range number falls through silently. -/

inductive GotoOutcome
  | navigate (target : String)
  | invalidChoice
  | silentNoop
deriving DecidableEq, Repr

/-- Numeric value of a decimal digit. -/
def digitVal (c : Char) : Option ℕ :=
  if c.isDigit then some (c.toNat - '0'.toNat) else none

/-- Parse an unsigned decimal numeral (every character a digit, at least
one). -/
def parseNatChars (l : List Char) : Option ℕ :=
  if l = [] then none
  else
    l.foldl
      (fun acc c =>
        match acc, digitVal c with
        | some n, some d => some (n * 10 + d)
        | _, _ => none)
      (some 0)

/-- Python `int(str)` on a trimmed token: optional sign followed by
digits; `none` models the raised `ValueError`. -/
def parseIntChars (l : List Char) : Option Int :=
  match l with
  | '-' :: rest => (parseNatChars rest).map (fun n => -(n : Int))
  | '+' :: rest => (parseNatChars rest).map (fun n => (n : Int))
  | _ => (parseNatChars l).map (fun n => (n : Int))

/-- The selection step of `Navigator.goto` for the multiple-match case. -/
def gotoSelect (ms : List String) (choice : List Char) : GotoOutcome :=
  match parseIntChars choice with
  | none => .invalidChoice
  | some n =>
    let idx : Int := n - 1
    if 0 ≤ idx ∧ idx < ms.length then
      match ms.get? idx.toNat with
      | some t => .navigate t
      | none => .silentNoop
    else .silentNoop

/-! ## Classifier (`DojoContext.detect_type` / `_check_node`)

The directory is observed through the marker files it contains, whether
`app/` is a subdirectory, and the parse of `package.json`
(`none` = unreadable or malformed JSON, in which case every `json.loads`
in `_check_node` raises and is caught). -/

structure PkgJson where
  dependencies : List String
  devDependencies : List String
deriving DecidableEq, Repr

structure DirCtx where
  files : List String
  appIsDir : Bool
  pkg : Option PkgJson
deriving DecidableEq, Repr

/-- `DojoContext._check_node`: Next.js config file, then `app/` directory
with a `next` dependency, then `react`/`express`/`vite` over the merged
direct+dev dependencies, else the generic `node` tag (also on parse
failure). -/
def _check_node (d : DirCtx) : String :=
  if "next.config.ts" ∈ d.files ∨ "next.config.js" ∈ d.files then "nextjs"
  else
    let viaAppDir : Bool :=
      if d.appIsDir ∧ "package.json" ∈ d.files then
        match d.pkg with
        | some p => decide ("next" ∈ p.dependencies)
        | none => false
      else false
    if viaAppDir then "nextjs"
    else
      match d.pkg with
      | some p =>
        let deps := p.dependencies ++ p.devDependencies
        if "react" ∈ deps then "react"
        else if "express" ∈ deps then "express"
        else if "vite" ∈ deps then "vite"
        else "node"
      | none => "node"

/-- `DojoContext.detect_type`: first-match-wins over the ordered marker
list, defaulting to `folder`. -/
def detect_type (d : DirCtx) : String :=
  if "package.json" ∈ d.files then _check_node d
  else if "app.py" ∈ d.files then "streamlit"
  else if "requirements.txt" ∈ d.files then "python"
  else if "foundry.toml" ∈ d.files then "foundry"
  else if "Cargo.toml" ∈ d.files then "rust"
  else if "go.mod" ∈ d.files then "go"
  else "folder"

/-- `DojoContext.get_quick_actions`: the static type → actions table
(command, description, shell command, explanation). -/
def get_quick_actions (ptype : String) : List (String × String × String × String) :=
  if ptype = "nextjs" then
    [("dev", "Start dev server", "npm run dev", "Runs Next.js development server on http://localhost:3000"),
     ("build", "Build for production", "npm run build", "Creates optimized production build in .next/"),
     ("test", "Run tests", "npm test", "Executes Jest test suite")]
  else if ptype = "react" then
    [("dev", "Start dev server", "npm start", "Launches React dev server with hot reload"),
     ("build", "Build", "npm run build", "Creates production build in build/ directory"),
     ("test", "Test", "npm test", "Runs test suite in watch mode")]
  else if ptype = "node" then
    [("dev", "Start dev", "npm run dev", "Starts development server (usually with nodemon)"),
     ("start", "Start", "npm start", "Runs the production server"),
     ("install", "Install deps", "npm install", "Installs all dependencies from package.json")]
  else if ptype = "streamlit" then
    [("dev", "Run streamlit", "streamlit run app.py", "Launches Streamlit app in browser"),
     ("install", "Install deps", "pip install -r requirements.txt", "Installs Python dependencies")]
  else if ptype = "python" then
    [("dev", "Run main.py", "python main.py", "Executes main Python script"),
     ("install", "Install deps", "pip install -r requirements.txt", "Installs required packages"),
     ("venv", "Create venv", "python -m venv venv", "Creates virtual environment")]
  else if ptype = "foundry" then
    [("build", "Build contracts", "forge build", "Compiles Solidity contracts"),
     ("test", "Run tests", "forge test", "Runs Foundry test suite"),
     ("deploy", "Deploy", "forge script", "Deploys contracts using scripts")]
  else []

/-! ## Git health classification (`Health._check_git`)

One repository's status query: `none` models a raised exception
(timeout, missing binary); otherwise the captured stdout of
`git status -sb` is classified by substring checks in a fixed order. -/

/-- `needle` occurs as a contiguous substring of `hay` (Python `in`). -/
def isInfixB (needle hay : List Char) : Bool :=
  needle.isPrefixOf hay ||
    match hay with
    | [] => false
    | _ :: t => isInfixB needle t

/-- A character Python `str.strip()` removes. -/
def isPySpace (c : Char) : Bool :=
  c = ' ' || c = '\t' || c = '\n' || c = '\r' || c = '\x0b' || c = '\x0c'

/-- Split on newline characters (Python `str.split('\n')`). -/
def splitNl (l : List Char) : List (List Char) :=
  match l with
  | [] => [[]]
  | c :: t =>
    let r := splitNl t
    if c = '\n' then [] :: r
    else
      match r with
      | [] => [[c]]
      | h :: t' => (c :: h) :: t'

/-- `bool([l for l in status.split('\n') if l.strip() and not l.startswith('#')])`:
some line is non-blank and does not start with `#`. -/
def hasChangesB (status : List Char) : Bool :=
  (splitNl status).any (fun l => !l.all isPySpace && !(l.head? == some '#'))

/-- The per-repository record built by `_check_git` (its `synced` flag and
`issue` string). -/
structure GitCheckResult where
  synced : Bool
  issue : Option String
deriving DecidableEq, Repr

/-- The classification chain of `Health._check_git` on a captured status
output. -/
def classifyGitStatus (status : List Char) : GitCheckResult :=
  if isInfixB "ahead".data status then ⟨false, some "unpushed commits"⟩
  else if isInfixB "behind".data status then ⟨false, some "behind origin"⟩
  else if isInfixB "Your branch is up to date".data status ∨
      isInfixB "branch.head".data status then ⟨true, none⟩
  else if hasChangesB status then ⟨false, some "uncommitted changes"⟩
  else ⟨true, none⟩

/-- One iteration of `Health._check_git`: a raised status query
(`none`) is caught and recorded as the error status; otherwise the output
is classified. -/
def _check_git_one (query : Option (List Char)) : GitCheckResult :=
  match query with
  | none => ⟨false, some "error"⟩
  | some status => classifyGitStatus status

/-! ## Migration (`migrate.py`)

The workspace is modelled as a flat map from absolute paths (relative to
the dojo root, as segment lists) to filesystem objects.  `shutil.move`
into an existing directory moves the source *inside* it
(`dst/basename(src)`); otherwise it renames.  `mkdir` raises on a
conflicting file.  Failures inside the per-entry `try` of
`Migration.execute` and the per-move `try` of `Migration.rollback` are
caught; failures of the four top-level `mkdir` calls propagate. -/

inductive FsObj
  | dirO
  | fileO (content : String)
deriving DecidableEq, Repr

abbrev Path := List String
abbrev Fs := Path → Option FsObj

def isDirB (f : Fs) (p : Path) : Bool := f p == some .dirO

def existsB (f : Fs) (p : Path) : Bool := (f p).isSome

def readFileF (f : Fs) (p : Path) : Option String :=
  match f p with
  | some (.fileO c) => some c
  | _ => none

def setNode (f : Fs) (p : Path) (o : FsObj) : Fs :=
  fun q => if q = p then some o else f q

/-- The filesystem after relocating the subtree at `s` to `d`. -/
def moveFn (f : Fs) (s d : Path) : Fs :=
  fun q =>
    if d.isPrefixOf q then f (s ++ q.drop d.length)
    else if s.isPrefixOf q then none
    else f q

/-- `os.rename(src, dst)` on one filesystem: the subtree rooted at `src`
reappears under `dst` and vanishes at `src`.  Errors (`none`): missing
source, missing parent directory of the destination, or an existing
destination (the migration flows never rename onto an existing path, so
POSIX file-over-file replacement is not modelled). -/
def renameF (f : Fs) (s d : Path) : Option Fs :=
  if s = [] ∨ d = [] then none
  else if (f s).isNone then none
  else if f d.dropLast ≠ some .dirO then none
  else if (f d).isSome then none
  else some (moveFn f s d)

/-- `shutil.move(src, dst)`: if `dst` is an existing directory the source
is moved to `dst/basename(src)` (error if that exists), else it is
renamed to `dst`. -/
def shutilMoveF (f : Fs) (s d : Path) : Option Fs :=
  if f d = some .dirO then
    match s.getLast? with
    | none => none
    | some b => if (f (d ++ [b])).isSome then none else renameF f s (d ++ [b])
  else renameF f s d

/-- `path.mkdir(exist_ok=True)` (no `parents`): no-op on an existing
directory, `FileExistsError` on a file, creation requires the parent
directory. -/
def mkdirTop (f : Fs) (p : Path) : Option Fs :=
  match f p with
  | some .dirO => some f
  | some (.fileO _) => none
  | none =>
    if f p.dropLast = some .dirO then some (setNode f p .dirO) else none

/-- Helper for `mkdirParents`, over the reversed path. -/
def mkdirParentsRev (f : Fs) : Path → Option Fs
  | [] => if f [] = some .dirO then some f else none
  | x :: rest => do
    let f' ← mkdirParentsRev f rest
    match f' ((x :: rest).reverse) with
    | some .dirO => some f'
    | some (.fileO _) => none
    | none => some (setNode f' ((x :: rest).reverse) .dirO)

/-- `path.mkdir(parents=True, exist_ok=True)`. -/
def mkdirParents (f : Fs) (p : Path) : Option Fs := mkdirParentsRev f p.reverse

/-- The ordered old-path → new-path mapping of `Migration.__init__`. -/
def structure_map : List (Path × Path) :=
  [(["apps"], ["work", "apps"]),
   (["bots"], ["work", "bots"]),
   (["tools"], ["work", "tools"]),
   (["contracts"], ["work", "contracts"]),
   (["experiments"], ["lab"]),
   (["protocols"], ["research", "defi"]),
   (["ideas"], ["research", "strategies"]),
   (["archive"], ["resources"]),
   (["downloads"], ["resources", "downloads"])]

/-- One entry of the migration loop in `Migration.execute`: skip a missing
source; ensure the destination's parent; move; record the move only on
success; exceptions are caught per entry (directories already created by
the `mkdir` stay created). -/
def execStep (st : Fs × List (Path × Path)) (e : Path × Path) : Fs × List (Path × Path) :=
  if (st.1 e.1).isSome then
    match mkdirParents st.1 e.2.dropLast with
    | none => st
    | some f' =>
      match shutilMoveF f' e.1 e.2 with
      | none => (f', st.2)
      | some f'' => (f'', st.2 ++ [e])
  else st

/-- `Migration.execute` after confirmation: create the four new top-level
directories, then run the mapping; `none` models an uncaught
`FileExistsError` from one of the four `mkdir` calls. -/
def execute (f : Fs) : Option (Fs × List (Path × Path)) := do
  let f1 ← mkdirTop f ["work"]
  let f2 ← mkdirTop f1 ["lab"]
  let f3 ← mkdirTop f2 ["research"]
  let f4 ← mkdirTop f3 ["resources"]
  some (structure_map.foldl execStep (f4, []))

/-- One reversal in `Migration.rollback`: move `to` back to `from`;
a failure is reported and skipped. -/
def rollbackStep (f : Fs) (mv : Path × Path) : Fs :=
  match shutilMoveF f mv.2 mv.1 with
  | none => f
  | some f' => f'

/-- `Migration.rollback` after confirmation: reverse the recorded moves in
reverse order. -/
def rollback (f : Fs) (mvs : List (Path × Path)) : Fs :=
  mvs.reverse.foldl rollbackStep f

/-! ## Fuzzy search (`Navigator._fuzzy_search`)

`difflib.SequenceMatcher(None, term, name).ratio()` is `2*M/T` where `M`
is the total size of the Ratcliff–Obershelp matching blocks and `T` the
sum of lengths.  For the short strings involved no junk/autojunk applies,
so `b2j` indexes every position and the post-loop junk extensions are
no-ops (the dynamic programme already carries maximal common suffixes),
hence `find_longest_match` returns the maximal common-suffix chain,
realised at the scan-order-first cell. -/

/-- The characters at position `i` of `a` and `j` of `b` exist and are
equal. -/
def matchAtB (a b : List Char) (i j : ℕ) : Bool :=
  (a.get? i).isSome && (a.get? i == b.get? j)

/-- `j2len` chain of `find_longest_match`: length of the longest common
suffix ending at `a[i]`, `b[j]` with `a`-positions ≥ `alo` and
`b`-positions in `[blo, bhi)`. -/
def chain (a b : List Char) (alo blo bhi : ℕ) : ℕ → ℕ → ℕ
  | 0, j => if alo ≤ 0 ∧ blo ≤ j ∧ j < bhi ∧ matchAtB a b 0 j then 1 else 0
  | i + 1, 0 => if alo ≤ i + 1 ∧ blo ≤ 0 ∧ 0 < bhi ∧ matchAtB a b (i + 1) 0 then 1 else 0
  | i + 1, j + 1 =>
    if alo ≤ i + 1 ∧ blo ≤ j + 1 ∧ j + 1 < bhi ∧ matchAtB a b (i + 1) (j + 1) then
      chain a b alo blo bhi i j + 1
    else 0

/-- Result of `find_longest_match`: block start in `a`, start in `b`,
size. -/
structure FlmBest where
  bi : ℕ
  bj : ℕ
  size : ℕ
deriving DecidableEq, Repr

/-- One cell of the `find_longest_match` scan: record a strictly larger
chain (Python updates only on `k > bestsize`, so the first maximal cell in
scan order wins). -/
def flmStep (a b : List Char) (alo blo bhi : ℕ) (best : FlmBest) (i j : ℕ) : FlmBest :=
  let k := chain a b alo blo bhi i j
  if best.size < k then ⟨i + 1 - k, j + 1 - k, k⟩ else best

/-- `find_longest_match(alo, ahi, blo, bhi)` (junk-free). -/
def flm (a b : List Char) (alo ahi blo bhi : ℕ) : FlmBest :=
  (List.range' alo (ahi - alo)).foldl
    (fun best i =>
      (List.range' blo (bhi - blo)).foldl (fun best j => flmStep a b alo blo bhi best i j) best)
    ⟨alo, blo, 0⟩

/-- The matched index pairs of `get_matching_blocks`, by the recursive
divide-and-conquer around each longest match.  `fuel ≥ ahi - alo` is
enough since each recursive range is strictly narrower. -/
def matchPairs (a b : List Char) : ℕ → ℕ → ℕ → ℕ → ℕ → List (ℕ × ℕ)
  | 0, _, _, _, _ => []
  | fuel + 1, alo, ahi, blo, bhi =>
    let r := flm a b alo ahi blo bhi
    if r.size = 0 then []
    else
      matchPairs a b fuel alo r.bi blo r.bj
        ++ (List.range r.size).map (fun t => (r.bi + t, r.bj + t))
        ++ matchPairs a b fuel (r.bi + r.size) ahi (r.bj + r.size) bhi

/-- Total number of matched characters (`sum of block sizes`). -/
def matchTotal (a b : List Char) : ℕ :=
  (matchPairs a b a.length 0 a.length 0 b.length).length

/-- `SequenceMatcher.ratio()`: `2*M/T`, and `1.0` for two empty
sequences. -/
def ratio (a b : List Char) : ℚ :=
  if a.length + b.length = 0 then 1
  else 2 * (matchTotal a b : ℚ) / ((a.length : ℚ) + (b.length : ℚ))

/-- Lowercase a char sequence (Python `str.lower()`). -/
def lowerL (s : List Char) : List Char := s.map Char.toLower

/-- One candidate's score in `_fuzzy_search`: the edit-distance ratio,
raised to at least 0.8 when the (lowercased) term is a substring of the
(lowercased) name. -/
def scoreOf (lterm lname : List Char) : ℚ :=
  let s := ratio lterm lname
  if isInfixB lterm lname then max s (4 / 5 : ℚ) else s

/-- The fixed category roots scanned by `_fuzzy_search`, in order. -/
def categories : List String := ["apps", "bots", "tools", "contracts", "work", "lab", "research"]

/-- The candidate (category, directory-name) pairs in enumeration order;
`children c` is the list of subdirectory names of category root `c`
(empty when the root does not exist — non-directories are never
enumerated). -/
def candidatesOf (children : String → List String) : List (String × String) :=
  categories.flatMap (fun cat => (children cat).map (fun n => (cat, n)))

/-- The scored matches that pass the threshold, in enumeration order. -/
def fuzzyMatches (children : String → List String) (threshold : ℚ) (term : String) :
    List (String × ℚ) :=
  (candidatesOf children).filterMap (fun cn =>
    let s := scoreOf (lowerL term.data) (lowerL cn.2.data)
    if threshold ≤ s then some (cn.1 ++ "/" ++ cn.2, s) else none)

/-- Python's stable `list.sort(key=score, reverse=True)`: insertion sort
placing each earlier element before later elements of equal score. -/
def sortScored (ms : List (String × ℚ)) : List (String × ℚ) :=
  ms.insertionSort (fun x y => y.2 ≤ x.2)

/-- `Navigator._fuzzy_search`: scored candidates above the threshold,
sorted by score descending, scores dropped. -/
def _fuzzy_search (children : String → List String) (threshold : ℚ) (term : String) :
    List String :=
  (sortScored (fuzzyMatches children threshold term)).map Prod.fst

/-! ## Auxiliary predicates and fixtures for the statements -/

/-- A history-mutating operation of §4.3, at the level of a parsed
document. -/
inductive HistOp
  | visit (name ptype now path : String)
  | cmd (command : String) (args : List String) (now : String) (project : Option String)

/-- Apply one history operation to a parsed document. -/
def applyOp (d : HistoryData) (o : HistOp) : HistoryData :=
  match o with
  | .visit n pt now p => visitUpdate n pt now p d
  | .cmd c a now pr => commandUpdate c a now pr d

/-- The four new top-level directories created by `Migration.execute`. -/
def fourNames : List String := ["work", "lab", "research", "resources"]

/-- The two mapping sources whose destination is itself one of the four
created directories (`experiments → lab`, `archive → resources`). -/
def deadSrcs : List Path := [["experiments"], ["archive"]]

/-- A mapping entry of the clean shape: single-segment source that is not
one of the created directories nor `experiments`/`archive`, two-segment
destination directly under one of the created directories. -/
def goodE (e : Path × Path) : Bool :=
  match e with
  | ([o], [c, _]) =>
    (c ∈ fourNames) && !(o ∈ fourNames) && !(o == "experiments") && !(o == "archive")
  | _ => false

/-- The filesystem component of one `execStep`. -/
def execStep1 (f : Fs) (e : Path × Path) : Fs := (execStep (f, []) e).1

/-- Conditions under which a single move is a clean reversible rename:
source and destination are proper nonempty non-nested paths, nothing
exists in the destination subtree, and both parents (all their prefixes)
are directories. -/
def MoveOK (f : Fs) (s d : Path) : Prop :=
  s ≠ [] ∧ d ≠ [] ∧ ¬(s <+: d) ∧ ¬(d <+: s)
    ∧ (∀ q, d <+: q → f q = none)
    ∧ (∀ q, q <+: d.dropLast → f q = some .dirO)
    ∧ (∀ q, q <+: s.dropLast → f q = some .dirO)

/-- Every entry whose source exists is a clean move at the state where it
is executed. -/
def Safe : Fs → List (Path × Path) → Prop
  | _, [] => True
  | f, e :: rest => ((f e.1).isSome → MoveOK f e.1 e.2) ∧ Safe (execStep1 f e) rest

/-- Invariant carried through the migration loop: root and the four
created directories are directories, `experiments`/`archive` are absent,
every remaining entry is clean-shaped or has a dead source, remaining
clean destinations have empty subtrees, and destinations are pairwise
distinct. -/
def Inv (f : Fs) (es : List (Path × Path)) : Prop :=
  f [] = some .dirO
    ∧ (∀ c ∈ fourNames, f [c] = some .dirO)
    ∧ (∀ s ∈ deadSrcs, f s = none)
    ∧ (∀ e ∈ es, goodE e = true ∨ e.1 ∈ deadSrcs)
    ∧ (∀ e ∈ es, goodE e = true → ∀ q, e.2 <+: q → f q = none)
    ∧ es.Pairwise (fun e e' => e.2 ≠ e'.2)

/-- Workspace-level hypotheses under which the migration round-trip is
clean: the root is a directory, nothing exists under the four directory
names to be created, and the two sources whose mapped destination is a
created directory are absent. -/
def Hyp (f : Fs) : Prop :=
  f [] = some .dirO
    ∧ (∀ q, ["work"] <+: q → f q = none)
    ∧ (∀ q, ["lab"] <+: q → f q = none)
    ∧ (∀ q, ["research"] <+: q → f q = none)
    ∧ (∀ q, ["resources"] <+: q → f q = none)
    ∧ f ["experiments"] = none
    ∧ f ["archive"] = none

/-- The four created directories as root paths. -/
def fourPaths : List Path := [["work"], ["lab"], ["research"], ["resources"]]

/-- The state after the four `mkdir` calls of `Migration.execute` on a
workspace that had none of them. -/
def fourAdded (f0 : Fs) : Fs :=
  setNode (setNode (setNode (setNode f0 ["work"] .dirO) ["lab"] .dirO) ["research"] .dirO)
    ["resources"] .dirO

/-- A legacy workspace holding a single `apps` project. -/
def wsA : Fs := fun p =>
  if p = [] then some .dirO
  else if p = ["apps"] then some .dirO
  else if p = ["apps", "main.py"] then some (.fileO "print") else none

/-- A legacy workspace holding a single `experiments` folder. -/
def wsExp : Fs := fun p =>
  if p = [] then some .dirO
  else if p = ["experiments"] then some .dirO
  else if p = ["experiments", "notes.md"] then some (.fileO "hi") else none

/-- A history document whose `recent` list already exceeds the cap. -/
def overfullHistory : HistoryData :=
  ⟨List.replicate 21 ⟨"p", "t", "ts", "/p"⟩, [], [], []⟩

/-- Soundness of a `find_longest_match` result: the block lies inside the
ranges and all its positions match. -/
def FlmValid (a b : List Char) (alo ahi blo bhi : ℕ) (r : FlmBest) : Prop :=
  alo ≤ r.bi ∧ r.bi + r.size ≤ ahi ∧ blo ≤ r.bj ∧ r.bj + r.size ≤ bhi
    ∧ ∀ t < r.size, matchAtB a b (r.bi + t) (r.bj + t) = true

/-- Soundness of a matched-pairs list: every pair is in range and
matching, and the pairs are strictly increasing in both coordinates. -/
def PairsOK (a b : List Char) (alo ahi blo bhi : ℕ) (ps : List (ℕ × ℕ)) : Prop :=
  (∀ p ∈ ps, alo ≤ p.1 ∧ p.1 < ahi ∧ blo ≤ p.2 ∧ p.2 < bhi ∧ matchAtB a b p.1 p.2 = true)
    ∧ ps.Pairwise (fun p q => p.1 < q.1 ∧ p.2 < q.2)

/-! ## Lemmas about the history store -/

theorem find?_bump_map (d : List (String × Nat)) (k : String) :
    (d.map (fun p => if p.1 == k then (p.1, p.2 + 1) else p)).find? (fun p => p.1 == k)
      = (d.find? (fun p => p.1 == k)).map (fun p => (p.1, p.2 + 1)) := by
  induction d with
  | nil => rfl
  | cons x t ih =>
    by_cases hx : x.1 = k
    · simp [hx, List.find?_cons_of_pos]
    · have hb : (x.1 == k) = false := by simpa using hx
      have h2 : (if (x.1 == k) = true then (x.1, x.2 + 1) else x) = x := by simp [hb]
      simp only [List.map_cons, h2]
      rw [List.find?_cons_of_neg _ (by simp [hb]), List.find?_cons_of_neg _ (by simp [hb]), ih]

theorem dictGet_dictBump (d : List (String × Nat)) (k : String) :
    dictGet (dictBump d k) k = dictGet d k + 1 := by
  unfold dictBump
  cases h : d.any (fun p => p.1 == k) with
  | false =>
    have hf : d.find? (fun p => p.1 == k) = none := by
      rw [List.find?_eq_none]
      intro x hx hpx
      have : d.any (fun p => p.1 == k) = true := List.any_eq_true.mpr ⟨x, hx, hpx⟩
      rw [h] at this
      exact absurd this (by simp)
    simp [dictGet, List.find?_append, hf]
  | true =>
    simp only [h, if_true]
    unfold dictGet
    rw [find?_bump_map]
    have : (d.find? (fun p => p.1 == k)).isSome := by
      rw [List.find?_isSome]
      exact List.any_eq_true.mp h
    cases hf : d.find? (fun p => p.1 == k) with
    | none => rw [hf] at this; simp at this
    | some y => simp

theorem countP_name_take_filter (name : String) (l : List VisitEntry) (m : ℕ) :
    ((l.filter (fun r => r.name != name)).take m).countP (fun r => r.name == name) = 0 := by
  rw [List.countP_eq_zero]
  intro a ha
  have ha' := List.take_subset _ _ ha
  have hne := (List.mem_filter.mp ha').2
  simp only [bne_iff_ne, ne_eq] at hne
  simp [hne]

/-- C3 (corrected). `log_visit` and `log_command` never raise: the
`try/except: pass` wrapper always returns; but on a corrupt (non-JSON)
history file the body's `json.loads` raises before anything is written,
so the operation is skipped entirely — the file is left corrupt and the
visit/command is *not* recorded (the file is not treated as an empty
history to update).  On a well-formed file the documented update is
performed. -/
theorem c3_log_ops_total_but_skip_corrupt (name pt now path c : String)
    (a : List String) (pr : Option String) :
    (log_visit (some name) pt now path .corrupt = .corrupt)
    ∧ (log_command c a now pr .corrupt = .corrupt)
    ∧ (∀ d, log_visit (some name) pt now path (.ok d) = .ok (visitUpdate name pt now path d))
    ∧ (∀ d, log_command c a now pr (.ok d) = .ok (commandUpdate c a now pr d))
    ∧ (∀ f, (logVisitBody name pt now path f).isOk = false ↔ f = .corrupt) := by
  refine ⟨rfl, rfl, fun d => rfl, fun d => rfl, fun f => ?_⟩
  cases f <;> simp [logVisitBody, Except.isOk, Except.toBool]

/-- C3 counterexample: the claim's reading — a corrupt file is treated as
an empty history that the operation then updates — is false: `log_visit`
on a corrupt file does not produce the updated empty history (it leaves
the file corrupt, recording nothing). -/
theorem c3_corrupt_not_updated_as_empty :
    log_visit (some "work/demo") "nextjs" "t0" "/d" .corrupt ≠
      .ok (visitUpdate "work/demo" "nextjs" "t0" "/d" emptyHistory) := by
  decide

/-- C5 (confirmed; `add_favorite`/`get_favorites` modelled from the spec,
`toggle_favorite` from `navigator.py`).  Favorites have set semantics:
adding a present name is a no-op reported "already present" (`false`),
toggling inspects membership first, removes a present name and appends an
absent one, and never produces duplicates. -/
theorem c5_favorites_set_semantics (d : HistoryData) (name : String) :
    (name ∈ d.favorites → add_favorite name d = (d, false))
    ∧ (name ∈ d.favorites →
        (toggle_favorite name d).favorites = d.favorites.filter (fun f => f != name))
    ∧ (name ∉ d.favorites → (toggle_favorite name d).favorites = d.favorites ++ [name])
    ∧ (d.favorites.Nodup → (toggle_favorite name d).favorites.Nodup)
    ∧ (name ∈ d.favorites → name ∉ (toggle_favorite name d).favorites) := by
  refine ⟨fun h => by simp [add_favorite, h], fun h => by simp [toggle_favorite, get_favorites, h],
    fun h => by simp [toggle_favorite, get_favorites, h, add_favorite], fun hnd => ?_, fun h => ?_⟩
  · by_cases h : name ∈ d.favorites
    · simp only [toggle_favorite, get_favorites, h, if_true]
      exact hnd.filter _
    · simp only [toggle_favorite, get_favorites, h, if_false, add_favorite]
      rw [List.nodup_append]
      exact ⟨hnd, List.nodup_singleton name, by simpa using fun hx => h hx⟩
  · simp only [toggle_favorite, get_favorites, h, if_true]
    intro hmem
    have := (List.mem_filter.mp hmem).2
    simp at this

/-- C5 witness: on a document whose favorites are `["a"]`, toggling `"a"`
removes it, and adding `"a"` is the reported no-op. -/
theorem c5_favorites_set_semantics_witness :
    ("a" ∈ (⟨[], [], [], ["a"]⟩ : HistoryData).favorites)
    ∧ "a" ∉ (toggle_favorite "a" ⟨[], [], [], ["a"]⟩).favorites
    ∧ add_favorite "a" ⟨[], [], [], ["a"]⟩ = (⟨[], [], [], ["a"]⟩, false) := by
  refine ⟨by decide, (c5_favorites_set_semantics ⟨[], [], [], ["a"]⟩ "a").2.2.2.2 (by decide),
    (c5_favorites_set_semantics ⟨[], [], [], ["a"]⟩ "a").1 (by decide)⟩

/-- C7 (confirmed). Logging a visit to the same project twice (through
the file-level operation or the in-memory update) leaves exactly one
`recent` entry with that name, at the front, while the visit counter
grows by exactly 2. -/
theorem c7_log_visit_twice (d : HistoryData)
    (name pt1 now1 path1 pt2 now2 path2 : String) :
    (log_visit (some name) pt2 now2 path2
        (log_visit (some name) pt1 now1 path1 (.ok d)) =
      .ok (visitUpdate name pt2 now2 path2 (visitUpdate name pt1 now1 path1 d)))
    ∧ ((visitUpdate name pt2 now2 path2 (visitUpdate name pt1 now1 path1 d)).recent.countP
        (fun r => r.name == name) = 1)
    ∧ ((visitUpdate name pt2 now2 path2 (visitUpdate name pt1 now1 path1 d)).recent.head?.map
        VisitEntry.name = some name)
    ∧ (dictGet (visitUpdate name pt2 now2 path2 (visitUpdate name pt1 now1 path1 d)).visits name
        = dictGet d.visits name + 2) := by
  refine ⟨rfl, ?_, ?_, ?_⟩
  · show ((⟨name, pt2, now2, path2⟩ ::
        (visitUpdate name pt1 now1 path1 d).recent.filter (fun r => r.name != name)).take
          20).countP (fun r => r.name == name) = 1
    rw [show (20 : ℕ) = 19 + 1 from rfl, List.take_succ_cons,
      List.countP_cons_of_pos _ _ (by simp)]
    rw [countP_name_take_filter]
  · show ((⟨name, pt2, now2, path2⟩ ::
        (visitUpdate name pt1 now1 path1 d).recent.filter (fun r => r.name != name)).take
          20).head?.map VisitEntry.name = some name
    rw [show (20 : ℕ) = 19 + 1 from rfl, List.take_succ_cons]
    rfl
  · show dictGet (dictBump (dictBump d.visits name) name) name = dictGet d.visits name + 2
    rw [dictGet_dictBump, dictGet_dictBump]

/-- C8 counterexample: the caps are not re-established on fields an
operation does not touch — from a state whose `recent` already holds 21
entries, a `log_command` leaves `recent` at 21 entries, so "after any
sequence of operations from any starting state the caps hold" is false. -/
theorem c8_caps_not_restored :
    ¬ (([HistOp.cmd "ls" [] "t" none].foldl applyOp overfullHistory).recent.length ≤ 20) := by
  decide

/-- C8 (corrected). Starting from any history state already within the
caps (in particular the initial empty history), any sequence of
`log_visit`/`log_command` updates keeps `recent` at ≤ 20 entries and
`command_history` at ≤ 100; and each command append drops oldest entries
first (the new log is a suffix of the old log extended by the new
entry). -/
theorem c8_caps_preserved (ops : List HistOp) (d : HistoryData)
    (h1 : d.recent.length ≤ 20) (h2 : d.command_history.length ≤ 100) :
    ((ops.foldl applyOp d).recent.length ≤ 20
      ∧ (ops.foldl applyOp d).command_history.length ≤ 100)
    ∧ ∀ (d' : HistoryData) (c : String) (a : List String) (n : String) (pr : Option String),
        (commandUpdate c a n pr d').command_history.IsSuffix
          (d'.command_history ++ [⟨c, a, n, pr⟩]) := by
  constructor
  · induction ops generalizing d with
    | nil => exact ⟨h1, h2⟩
    | cons op rest ih =>
      refine ih (applyOp d op) ?_ ?_
      · cases op with
        | visit n pt now p => exact List.length_take_le _ _
        | cmd c a now pr => exact h1
      · cases op with
        | visit n pt now p => exact h2
        | cmd c a now pr =>
          show (lastN 100 _).length ≤ 100
          simp only [lastN, List.length_drop]
          omega
  · intro d' c a n pr
    exact List.drop_suffix _ _

/-- C8 witness: from the empty history, a visit followed by a command
keeps both caps. -/
theorem c8_caps_preserved_witness :
    (emptyHistory.recent.length ≤ 20 ∧ emptyHistory.command_history.length ≤ 100)
    ∧ (([HistOp.visit "p" "t" "ts" "/p", HistOp.cmd "ls" [] "ts" none].foldl applyOp
          emptyHistory).recent.length ≤ 20
        ∧ ([HistOp.visit "p" "t" "ts" "/p", HistOp.cmd "ls" [] "ts" none].foldl applyOp
          emptyHistory).command_history.length ≤ 100) :=
  ⟨⟨by decide, by decide⟩,
    (c8_caps_preserved [HistOp.visit "p" "t" "ts" "/p", HistOp.cmd "ls" [] "ts" none]
      emptyHistory (by decide) (by decide)).1⟩

/-! ## `goto` selection -/

/-- C6 counterexample: with two matches, the out-of-range numeric reply
`"3"` is silently ignored — no error is reported (the claim says every
out-of-range numeric selection is reported as an error). -/
theorem c6_out_of_range_silent :
    gotoSelect ["work/alpha", "work/beta"] "3".data = .silentNoop
    ∧ GotoOutcome.silentNoop ≠ GotoOutcome.invalidChoice := by
  exact ⟨by decide, by decide⟩

/-- C6 (corrected). A non-numeric selection is reported as an error
("Invalid choice") and nothing is navigated; an out-of-range numeric
selection is silently ignored — not clamped, nothing navigated, no state
mutated, but also no error reported; an in-range selection navigates to
the chosen match. -/
theorem c6_selection_behavior (ms : List String) (choice : List Char) :
    (parseIntChars choice = none → gotoSelect ms choice = .invalidChoice)
    ∧ (∀ n : Int, parseIntChars choice = some n →
        ¬(0 ≤ n - 1 ∧ n - 1 < (ms.length : Int)) → gotoSelect ms choice = .silentNoop)
    ∧ (∀ n : Int, parseIntChars choice = some n → 0 ≤ n - 1 → n - 1 < (ms.length : Int) →
        ∃ t, gotoSelect ms choice = .navigate t ∧ ms.get? (n - 1).toNat = some t) := by
  refine ⟨fun h => by simp [gotoSelect, h], fun n hn hrange => ?_, fun n hn h0 hlt => ?_⟩
  · simp only [gotoSelect, hn, if_neg hrange]
  · have hnat : (n - 1).toNat < ms.length := by omega
    obtain ⟨t, ht⟩ : ∃ t, ms.get? (n - 1).toNat = some t := ⟨_, List.get?_eq_get hnat⟩
    refine ⟨t, ?_, ht⟩
    simp only [gotoSelect, hn]
    rw [if_pos ⟨h0, hlt⟩, ht]

/-- C6 witness: concrete behaviours for a non-numeric, an out-of-range,
and an in-range reply over two matches. -/
theorem c6_selection_behavior_witness :
    gotoSelect ["work/alpha", "work/beta"] "x".data = .invalidChoice
    ∧ gotoSelect ["work/alpha", "work/beta"] "0".data = .silentNoop
    ∧ ∃ t, gotoSelect ["work/alpha", "work/beta"] "2".data = .navigate t
        ∧ ["work/alpha", "work/beta"].get? ((2 : Int) - 1).toNat = some t := by
  refine ⟨(c6_selection_behavior _ "x".data).1 (by decide),
    (c6_selection_behavior _ "0".data).2.1 0 (by decide) (by decide), ?_⟩
  exact (c6_selection_behavior ["work/alpha", "work/beta"] "2".data).2.2 2 (by decide)
    (by decide) (by decide)

/-! ## Classifier claims -/

/-- C2 counterexample: a `package.json` whose dependencies include
`"next"` does not classify as Next.js when no `next.config.*` file and no
`app/` directory is present — `_check_node` falls through to the generic
`node` tag, refuting "for every directory containing a package.json whose
dependencies include next, detect_type returns the Next.js type". -/
theorem c2_next_dep_alone_not_nextjs :
    detect_type ⟨["package.json"], false, some ⟨["next"], []⟩⟩ = "node"
    ∧ "node" ≠ "nextjs" := by
  exact ⟨by decide, by decide⟩

/-- C2 (corrected). The Next.js tag requires a `next.config.ts`/`.js`
file, or an `app/` directory together with a `next` entry in
`dependencies`; a bare `next` dependency falls through to the
`react`/`express`/`vite`/`node` chain.  Framework-specific tags still
precede the generic tag (`react` over `node`; `node` when no specific
dependency matches or the manifest is malformed), and the Next.js type
carries a "dev" quick action running the framework dev server. -/
theorem c2_classifier_priority (d : DirCtx) (p : PkgJson) :
    ("package.json" ∈ d.files → ("next.config.ts" ∈ d.files ∨ "next.config.js" ∈ d.files) →
      detect_type d = "nextjs")
    ∧ ("package.json" ∈ d.files → "next.config.ts" ∉ d.files → "next.config.js" ∉ d.files →
        d.appIsDir = true → d.pkg = some p → "next" ∈ p.dependencies →
        detect_type d = "nextjs")
    ∧ ("package.json" ∈ d.files → "next.config.ts" ∉ d.files → "next.config.js" ∉ d.files →
        d.pkg = some p → (d.appIsDir = false ∨ "next" ∉ p.dependencies) →
        "react" ∈ p.dependencies ++ p.devDependencies →
        detect_type d = "react")
    ∧ ("package.json" ∈ d.files → "next.config.ts" ∉ d.files → "next.config.js" ∉ d.files →
        d.pkg = some p → (d.appIsDir = false ∨ "next" ∉ p.dependencies) →
        "react" ∉ p.dependencies ++ p.devDependencies →
        "express" ∉ p.dependencies ++ p.devDependencies →
        "vite" ∉ p.dependencies ++ p.devDependencies →
        detect_type d = "node")
    ∧ ("package.json" ∈ d.files → "next.config.ts" ∉ d.files → "next.config.js" ∉ d.files →
        d.pkg = none → detect_type d = "node")
    ∧ (("dev", "Start dev server", "npm run dev",
        "Runs Next.js development server on http://localhost:3000") ∈
          get_quick_actions "nextjs") := by
  refine ⟨fun hpkg hcfg => ?_, fun hpkg h1 h2 happ hp hnext => ?_,
    fun hpkg h1 h2 hp hno hreact => ?_, fun hpkg h1 h2 hp hno hr he hv => ?_,
    fun hpkg h1 h2 hp => ?_, by decide⟩
  · simp [detect_type, _check_node, hpkg, hcfg]
  · simp [detect_type, _check_node, hpkg, h1, h2, happ, hp, hnext]
  · rcases hno with happ | hnext
    · simp [detect_type, _check_node, hpkg, h1, h2, happ, hp, hreact]
    · simp [detect_type, _check_node, hpkg, h1, h2, hp, hnext, hreact]
  · rcases hno with happ | hnext
    · simp [detect_type, _check_node, hpkg, h1, h2, happ, hp, hr, he, hv]
    · simp [detect_type, _check_node, hpkg, h1, h2, hp, hnext, hr, he, hv]
  · simp [detect_type, _check_node, hpkg, h1, h2, hp]

/-- C2 witness: a manifest with a `next` dependency together with an
`app/` directory classifies as `nextjs`; with only a `react` dependency
it classifies as `react`. -/
theorem c2_classifier_priority_witness :
    detect_type ⟨["package.json"], true, some ⟨["next"], []⟩⟩ = "nextjs"
    ∧ detect_type ⟨["package.json"], false, some ⟨["react"], []⟩⟩ = "react" :=
  ⟨(c2_classifier_priority ⟨["package.json"], true, some ⟨["next"], []⟩⟩
      ⟨["next"], []⟩).2.1 (by decide) (by decide) (by decide) rfl rfl (by decide),
    (c2_classifier_priority ⟨["package.json"], false, some ⟨["react"], []⟩⟩
      ⟨["react"], []⟩).2.2.1 (by decide) (by decide) (by decide) rfl (Or.inl rfl) (by decide)⟩

/-! ## Health-scan claims -/

/-- C9 (confirmed). In `_check_git`, an output containing "ahead" is
always classified as unpushed commits — the check strictly precedes the
"behind" check, so it wins even when both substrings occur; every
repository receives exactly one of the five statuses; a raised status
query yields the error status, whose `synced` flag is false (counted as
unsynced). -/
theorem c9_git_classification (status : List Char) (q : Option (List Char)) :
    (isInfixB "ahead".data status = true →
      classifyGitStatus status = ⟨false, some "unpushed commits"⟩)
    ∧ (isInfixB "ahead".data status = true → isInfixB "behind".data status = true →
        classifyGitStatus status = ⟨false, some "unpushed commits"⟩)
    ∧ (_check_git_one q ∈
        [⟨false, some "unpushed commits"⟩, ⟨false, some "behind origin"⟩,
          (⟨true, none⟩ : GitCheckResult), ⟨false, some "uncommitted changes"⟩,
          ⟨false, some "error"⟩])
    ∧ (_check_git_one none = ⟨false, some "error"⟩)
    ∧ ((_check_git_one none).synced = false) := by
  refine ⟨fun h => by simp [classifyGitStatus, h], fun h _ => by simp [classifyGitStatus, h],
    ?_, rfl, rfl⟩
  cases q with
  | none => simp [_check_git_one]
  | some st =>
    simp only [_check_git_one, classifyGitStatus]
    split
    · simp
    · split
      · simp
      · split
        · simp
        · split <;> simp

/-- C9 witness: a status output containing both "ahead" and "behind" is
classified as unpushed commits. -/
theorem c9_git_classification_witness :
    isInfixB "ahead".data "## main [ahead 1, behind 2]".data = true
    ∧ classifyGitStatus "## main [ahead 1, behind 2]".data =
        ⟨false, some "unpushed commits"⟩ :=
  ⟨by decide,
    (c9_git_classification "## main [ahead 1, behind 2]".data none).2.1 (by decide) (by decide)⟩

/-! ## Lemmas for the `SequenceMatcher` embedding -/

theorem chain_le_left (a b : List Char) (alo blo bhi : ℕ) :
    ∀ i j, chain a b alo blo bhi i j ≤ i + 1 - alo := by
  intro i
  induction i with
  | zero =>
    intro j
    rw [chain]
    split
    · next h => omega
    · omega
  | succ i ih =>
    intro j
    cases j with
    | zero =>
      rw [chain]
      split
      · next h => omega
      · omega
    | succ j =>
      rw [chain]
      split
      · next h => have := ih j; omega
      · omega

theorem chain_le_right (a b : List Char) (alo blo bhi : ℕ) :
    ∀ i j, chain a b alo blo bhi i j ≤ j + 1 - blo := by
  intro i
  induction i with
  | zero =>
    intro j
    rw [chain]
    split
    · next h => omega
    · omega
  | succ i ih =>
    intro j
    cases j with
    | zero =>
      rw [chain]
      split
      · next h => omega
      · omega
    | succ j =>
      rw [chain]
      split
      · next h => have := ih j; omega
      · omega

theorem chain_match (a b : List Char) (alo blo bhi : ℕ) :
    ∀ i j t, t < chain a b alo blo bhi i j → matchAtB a b (i - t) (j - t) = true := by
  intro i
  induction i with
  | zero =>
    intro j t ht
    rw [chain] at ht
    split at ht
    · next h =>
      have ht0 : t = 0 := by omega
      subst ht0
      simpa using h.2.2.2
    · omega
  | succ i ih =>
    intro j t ht
    cases j with
    | zero =>
      rw [chain] at ht
      split at ht
      · next h =>
        have ht0 : t = 0 := by omega
        subst ht0
        simpa using h.2.2.2
      · omega
    | succ j =>
      rw [chain] at ht
      split at ht
      · next h =>
        cases t with
        | zero => simpa using h.2.2.2
        | succ t =>
          simp only [Nat.succ_sub_succ]
          exact ih j t (by omega)
      · omega

theorem flm_valid (a b : List Char) (alo ahi blo bhi : ℕ)
    (h1 : alo ≤ ahi) (h2 : blo ≤ bhi) :
    FlmValid a b alo ahi blo bhi (flm a b alo ahi blo bhi) := by
  unfold flm
  refine List.foldlRecOn _ _ _ ?_ ?_
  · unfold FlmValid
    exact ⟨le_refl _, by simpa using h1, le_refl _, by simpa using h2,
      fun t ht => by simp at ht⟩
  · rintro best hbest i hi
    refine List.foldlRecOn _ _ _ hbest ?_
    rintro best' hbest' j hj
    have hi' := List.mem_range'_1.mp hi
    have hj' := List.mem_range'_1.mp hj
    unfold flmStep
    dsimp only
    split
    · next hlt =>
      have hkpos : 0 < chain a b alo blo bhi i j := lt_of_le_of_lt (Nat.zero_le _) hlt
      have hki : chain a b alo blo bhi i j ≤ i + 1 - alo := chain_le_left a b alo blo bhi i j
      have hkj : chain a b alo blo bhi i j ≤ j + 1 - blo := chain_le_right a b alo blo bhi i j
      unfold FlmValid
      refine ⟨by simp; omega, by simp; omega, by simp; omega, by simp; omega, ?_⟩
      intro t ht
      simp only at ht ⊢
      have he1 : i + 1 - chain a b alo blo bhi i j + t
          = i - (chain a b alo blo bhi i j - 1 - t) := by omega
      have he2 : j + 1 - chain a b alo blo bhi i j + t
          = j - (chain a b alo blo bhi i j - 1 - t) := by omega
      rw [he1, he2]
      exact chain_match a b alo blo bhi i j (chain a b alo blo bhi i j - 1 - t) (by omega)
    · exact hbest'

theorem matchAtB_self (a : List Char) (i : ℕ) (h : i < a.length) :
    matchAtB a a i i = true := by
  unfold matchAtB
  rw [List.get?_eq_get h]
  simp

theorem chain_diag (a : List Char) : ∀ i, i < a.length → chain a a 0 0 a.length i i = i + 1 := by
  intro i
  induction i with
  | zero =>
    intro hi
    rw [chain, if_pos]
    exact ⟨le_refl _, le_refl _, hi, matchAtB_self a 0 hi⟩
  | succ i ih =>
    intro hi
    rw [chain, if_pos]
    · rw [ih (by omega)]
    · exact ⟨by omega, by omega, hi, matchAtB_self a (i + 1) hi⟩

theorem flmStep_update (a b : List Char) (alo blo bhi : ℕ) (best : FlmBest) (i j : ℕ)
    (h : best.size < chain a b alo blo bhi i j) :
    flmStep a b alo blo bhi best i j
      = ⟨i + 1 - chain a b alo blo bhi i j, j + 1 - chain a b alo blo bhi i j,
          chain a b alo blo bhi i j⟩ := by
  unfold flmStep
  dsimp only
  rw [if_pos h]

theorem flm_row_size_bound (a b : List Char) (alo blo bhi c i : ℕ) (cols : List ℕ)
    (best : FlmBest) (hbest : best.size ≤ c)
    (h : ∀ j ∈ cols, chain a b alo blo bhi i j ≤ c) :
    ((cols.foldl (fun best j => flmStep a b alo blo bhi best i j) best).size) ≤ c := by
  induction cols generalizing best with
  | nil => simpa using hbest
  | cons j rest ih =>
    rw [List.foldl_cons]
    refine ih _ ?_ (fun j' hj' => h j' (by simp [hj']))
    unfold flmStep
    dsimp only
    split
    · simpa using h j (by simp)
    · exact hbest

theorem flm_fold_size_bound (a b : List Char) (alo blo bhi c : ℕ) (rows cols : List ℕ)
    (best : FlmBest) (hbest : best.size ≤ c)
    (h : ∀ i ∈ rows, ∀ j ∈ cols, chain a b alo blo bhi i j ≤ c) :
    ((rows.foldl
        (fun best i => cols.foldl (fun best j => flmStep a b alo blo bhi best i j) best)
        best).size) ≤ c := by
  induction rows generalizing best with
  | nil => simpa using hbest
  | cons i rest ih =>
    rw [List.foldl_cons]
    refine ih _ ?_ (fun i' hi' j hj => h i' (by simp [hi']) j hj)
    exact flm_row_size_bound a b alo blo bhi c i cols best hbest (fun j hj => h i (by simp) j hj)

theorem flm_diag (a : List Char) (m : ℕ) (hm : a.length = m + 1) :
    flm a a 0 a.length 0 a.length = ⟨0, 0, a.length⟩ := by
  have hdiag := chain_diag a (a.length - 1) (by omega)
  rw [hm] at hdiag
  simp only [Nat.add_sub_cancel] at hdiag
  have hrange : List.range' 0 (m + 1) = List.range' 0 m ++ [m] := by
    rw [List.range'_concat]
    simp
  unfold flm
  rw [hm, Nat.sub_zero, hrange]
  rw [List.foldl_append, List.foldl_cons, List.foldl_nil]
  have hB : ((List.range' 0 m).foldl
      (fun best i =>
        (List.range' 0 m ++ [m]).foldl (fun best j => flmStep a a 0 0 (m + 1) best i j) best)
      ⟨0, 0, 0⟩).size ≤ m := by
    apply flm_fold_size_bound
    · simp
    · intro i hi j hj
      have hle := chain_le_left a a 0 0 (m + 1) i j
      have hi' := List.mem_range'_1.mp hi
      omega
  rw [List.foldl_append, List.foldl_cons, List.foldl_nil]
  have hB2 : (((List.range' 0 m).foldl
      (fun best j => flmStep a a 0 0 (m + 1) best m j)
      ((List.range' 0 m).foldl
        (fun best i =>
          (List.range' 0 m ++ [m]).foldl (fun best j => flmStep a a 0 0 (m + 1) best i j) best)
        ⟨0, 0, 0⟩)).size) ≤ m := by
    refine flm_row_size_bound a a 0 0 (m + 1) m m _ _ hB ?_
    intro j hj
    have hle := chain_le_right a a 0 0 (m + 1) m j
    have hj' := List.mem_range'_1.mp hj
    omega
  rw [flmStep_update a a 0 0 (m + 1) _ m m (by rw [hdiag]; omega)]
  rw [hdiag]
  simp

theorem matchPairs_empty_left (a b : List Char) :
    ∀ fuel alo blo bhi, matchPairs a b fuel alo alo blo bhi = [] := by
  intro fuel alo blo bhi
  cases fuel with
  | zero => rfl
  | succ fuel =>
    rw [matchPairs]
    have : flm a b alo alo blo bhi = ⟨alo, blo, 0⟩ := by
      unfold flm
      simp
    rw [this]
    simp

theorem matchPairs_ok (a b : List Char) :
    ∀ fuel alo ahi blo bhi, ahi - alo ≤ fuel → alo ≤ ahi → blo ≤ bhi →
      PairsOK a b alo ahi blo bhi (matchPairs a b fuel alo ahi blo bhi) := by
  intro fuel
  induction fuel with
  | zero =>
    intro alo ahi blo bhi _ _ _
    unfold PairsOK
    exact ⟨fun p hp => by simp [matchPairs] at hp, by simp [matchPairs]⟩
  | succ fuel ih =>
    intro alo ahi blo bhi hw ha hb
    unfold PairsOK
    rw [matchPairs]
    split
    · exact ⟨fun p hp => by simp at hp, by simp⟩
    · next hsz =>
      obtain ⟨hv1, hv2, hv3, hv4, hv5⟩ := flm_valid a b alo ahi blo bhi ha hb
      set r := flm a b alo ahi blo bhi with hr
      have hszpos : 0 < r.size := Nat.pos_of_ne_zero hsz
      have hleft := ih alo r.bi blo r.bj (by omega) (by omega) (by omega)
      have hright := ih (r.bi + r.size) ahi (r.bj + r.size) bhi (by omega) (by omega) (by omega)
      have hmidmem : ∀ p ∈ (List.range r.size).map (fun t => (r.bi + t, r.bj + t)),
          alo ≤ p.1 ∧ p.1 < ahi ∧ blo ≤ p.2 ∧ p.2 < bhi ∧ matchAtB a b p.1 p.2 = true := by
        rintro p hp
        rw [List.mem_map] at hp
        obtain ⟨t, ht, rfl⟩ := hp
        rw [List.mem_range] at ht
        exact ⟨by omega, by omega, by omega, by omega, hv5 t ht⟩
      have hmidpw : ((List.range r.size).map (fun t => (r.bi + t, r.bj + t))).Pairwise
          (fun p q => p.1 < q.1 ∧ p.2 < q.2) := by
        rw [List.pairwise_map]
        exact (List.pairwise_lt_range r.size).imp (fun h => ⟨by omega, by omega⟩)
      refine ⟨?_, ?_⟩
      · intro p hp
        rw [List.append_assoc, List.mem_append] at hp
        rcases hp with hp | hp
        · obtain ⟨h1, h2, h3, h4, h5⟩ := hleft.1 p hp
          exact ⟨h1, by omega, h3, by omega, h5⟩
        · rw [List.mem_append] at hp
          rcases hp with hp | hp
          · exact hmidmem p hp
          · obtain ⟨h1, h2, h3, h4, h5⟩ := hright.1 p hp
            exact ⟨by omega, h2, by omega, h4, h5⟩
      · rw [List.append_assoc, List.pairwise_append]
        refine ⟨hleft.2, ?_, ?_⟩
        · rw [List.pairwise_append]
          refine ⟨hmidpw, hright.2, ?_⟩
          rintro p hp q hq
          obtain ⟨t, ht, rfl⟩ := List.mem_map.mp hp
          rw [List.mem_range] at ht
          obtain ⟨h1, _, h3, _, _⟩ := hright.1 q hq
          exact ⟨by omega, by omega⟩
        · rintro p hp q hq
          obtain ⟨_, h2, _, h4, _⟩ := hleft.1 p hp
          rw [List.mem_append] at hq
          rcases hq with hq | hq
          · obtain ⟨t, ht, rfl⟩ := List.mem_map.mp hq
            exact ⟨by omega, by omega⟩
          · obtain ⟨h1, _, h3, _, _⟩ := hright.1 q hq
            exact ⟨by omega, by omega⟩

theorem pairwise_lt_length_le (l : List ℕ) (n : ℕ) (hp : l.Pairwise (· < ·))
    (hb : ∀ x ∈ l, x < n) : l.length ≤ n := by
  have hnd : l.Nodup := hp.nodup
  have hsub : l.toFinset ⊆ Finset.range n := by
    intro x hx
    exact Finset.mem_range.mpr (hb x (List.mem_toFinset.mp hx))
  have := Finset.card_le_card hsub
  rwa [List.toFinset_card_of_nodup hnd, Finset.card_range] at this

theorem pairwise_lt_ge_lower (l : List ℕ) :
    l.Pairwise (· < ·) → ∀ (m : ℕ), (∀ x ∈ l, m ≤ x) →
      ∀ (k : ℕ) (h : k < l.length), m + k ≤ l.get ⟨k, h⟩ := by
  induction l with
  | nil => intro _ m _ k h; simp at h
  | cons x t ih =>
    intro hp m hm k h
    cases k with
    | zero => simpa using hm x (by simp)
    | succ k =>
      have hpt := (List.pairwise_cons.mp hp).2
      have hxall := (List.pairwise_cons.mp hp).1
      have hih := ih hpt (x + 1) (fun y hy => hxall y hy) k (by simpa using h)
      have hmx : m ≤ x := hm x (by simp)
      simp only [List.get_cons_succ]
      omega

theorem pairwise_lt_get_upper (l : List ℕ) (n : ℕ) :
    l.Pairwise (· < ·) → (∀ x ∈ l, x < n) →
      ∀ (k : ℕ) (h : k < l.length), l.get ⟨k, h⟩ + (l.length - k) ≤ n := by
  induction l with
  | nil => intro _ _ k h; simp at h
  | cons x t ih =>
    intro hp hb k h
    have hpt := (List.pairwise_cons.mp hp).2
    have hxall := (List.pairwise_cons.mp hp).1
    cases k with
    | zero =>
      cases t with
      | nil => simpa using hb x (by simp)
      | cons y s =>
        have h0 := ih hpt (fun z hz => hb z (by simp [hz])) 0 (by simp)
        have hxy : x < y := hxall y (by simp)
        have h0' : y + ((y :: s).length - 0) ≤ n := h0
        show x + ((x :: y :: s).length - 0) ≤ n
        simp only [List.length_cons] at h0' ⊢
        omega
    | succ k =>
      have := ih hpt (fun z hz => hb z (by simp [hz])) k (by simpa using h)
      simp only [List.get_cons_succ, List.length_cons]
      simp only [List.length_cons] at h
      omega

theorem matchTotal_le (a b : List Char) :
    matchTotal a b ≤ a.length ∧ matchTotal a b ≤ b.length := by
  have hok := matchPairs_ok a b a.length 0 a.length 0 b.length (by omega) (by omega) (by omega)
  obtain ⟨hmem, hpw⟩ := hok
  constructor
  · have h1 : (List.map Prod.fst (matchPairs a b a.length 0 a.length 0 b.length)).Pairwise
        (· < ·) := by
      rw [List.pairwise_map]
      exact hpw.imp (fun h => h.1)
    have h2 : ∀ x ∈ List.map Prod.fst (matchPairs a b a.length 0 a.length 0 b.length),
        x < a.length := by
      intro x hx
      obtain ⟨p, hp, rfl⟩ := List.mem_map.mp hx
      exact (hmem p hp).2.1
    have := pairwise_lt_length_le _ _ h1 h2
    simpa [matchTotal] using this
  · have h1 : (List.map Prod.snd (matchPairs a b a.length 0 a.length 0 b.length)).Pairwise
        (· < ·) := by
      rw [List.pairwise_map]
      exact hpw.imp (fun h => h.2)
    have h2 : ∀ x ∈ List.map Prod.snd (matchPairs a b a.length 0 a.length 0 b.length),
        x < b.length := by
      intro x hx
      obtain ⟨p, hp, rfl⟩ := List.mem_map.mp hx
      exact (hmem p hp).2.2.2.1
    have := pairwise_lt_length_le _ _ h1 h2
    simpa [matchTotal] using this

theorem ratio_le_one (a b : List Char) : ratio a b ≤ 1 := by
  unfold ratio
  split
  · exact le_refl 1
  · next hT =>
    obtain ⟨hm1, hm2⟩ := matchTotal_le a b
    rw [div_le_one (by exact_mod_cast (show 0 < a.length + b.length by omega))]
    exact_mod_cast (show 2 * matchTotal a b ≤ a.length + b.length by omega)

theorem ratio_self (a : List Char) : ratio a a = 1 := by
  unfold ratio
  split
  · rfl
  · next hT =>
    have hn : a.length ≠ 0 := by omega
    obtain ⟨m, hm⟩ : ∃ m, a.length = m + 1 := ⟨a.length - 1, by omega⟩
    have hfd := flm_diag a m hm
    rw [hm] at hfd
    have hM : matchTotal a a = a.length := by
      unfold matchTotal
      rw [hm]
      rw [matchPairs, hfd]
      simp [matchPairs_empty_left]
    rw [hM]
    rw [div_eq_one_iff_eq (by exact_mod_cast (show a.length + a.length ≠ 0 by omega))]
    ring

theorem ratio_eq_one_iff (a b : List Char) : ratio a b = 1 ↔ a = b := by
  constructor
  · intro h
    unfold ratio at h
    split at h
    · next hT =>
      have ha : a.length = 0 := by omega
      have hb : b.length = 0 := by omega
      rw [List.length_eq_zero] at ha hb
      rw [ha, hb]
    · next hT =>
      rw [div_eq_one_iff_eq
        (by exact_mod_cast (show a.length + b.length ≠ 0 by omega))] at h
      have h2M : 2 * matchTotal a b = a.length + b.length := by exact_mod_cast h
      have hle := matchTotal_le a b
      have hMa : matchTotal a b = a.length := by omega
      have hMb : matchTotal a b = b.length := by omega
      -- positional argument: the matched pairs are forced onto the diagonal
      obtain ⟨hmem, hpw⟩ :=
        matchPairs_ok a b a.length 0 a.length 0 b.length (by omega) (by omega) (by omega)
      set ps := matchPairs a b a.length 0 a.length 0 b.length with hps
      have hlen : ps.length = a.length := hMa
      have hfst : ∀ (k : ℕ) (h : k < ps.length),
          (ps.get ⟨k, h⟩).1 = k := by
        intro k h
        have hmap : (ps.map Prod.fst).Pairwise (· < ·) := by
          rw [List.pairwise_map]
          exact hpw.imp (fun h => h.1)
        have hball : ∀ x ∈ ps.map Prod.fst, x < a.length := by
          intro x hx
          obtain ⟨p, hp, rfl⟩ := List.mem_map.mp hx
          exact (hmem p hp).2.1
        have hk' : k < (ps.map Prod.fst).length := by simpa using h
        have hlow := pairwise_lt_ge_lower _ hmap 0 (fun x _ => Nat.zero_le x) k hk'
        have hup := pairwise_lt_get_upper _ a.length hmap hball k hk'
        have hget : (ps.map Prod.fst).get ⟨k, hk'⟩ = (ps.get ⟨k, h⟩).1 := by
          simp
        rw [hget] at hlow hup
        simp only [List.length_map, hlen] at hup
        omega
      have hsnd : ∀ (k : ℕ) (h : k < ps.length),
          (ps.get ⟨k, h⟩).2 = k := by
        intro k h
        have hmap : (ps.map Prod.snd).Pairwise (· < ·) := by
          rw [List.pairwise_map]
          exact hpw.imp (fun h => h.2)
        have hball : ∀ x ∈ ps.map Prod.snd, x < b.length := by
          intro x hx
          obtain ⟨p, hp, rfl⟩ := List.mem_map.mp hx
          exact (hmem p hp).2.2.2.1
        have hk' : k < (ps.map Prod.snd).length := by simpa using h
        have hlow := pairwise_lt_ge_lower _ hmap 0 (fun x _ => Nat.zero_le x) k hk'
        have hup := pairwise_lt_get_upper _ b.length hmap hball k hk'
        have hget : (ps.map Prod.snd).get ⟨k, hk'⟩ = (ps.get ⟨k, h⟩).2 := by
          simp
        rw [hget] at hlow hup
        simp only [List.length_map, hlen] at hup
        omega
      apply List.ext_get?_iff.mpr
      intro k
      by_cases hk : k < a.length
      · have hkp : k < ps.length := by omega
        have hp := hmem (ps.get ⟨k, hkp⟩) (ps.get_mem _ _)
        have h5 := hp.2.2.2.2
        rw [hfst k hkp, hsnd k hkp] at h5
        unfold matchAtB at h5
        rw [Bool.and_eq_true] at h5
        have heq : a.get? k = b.get? k := by
          have := h5.2
          rwa [beq_iff_eq] at this
        exact heq
      · rw [List.get?_eq_none.mpr (by omega), List.get?_eq_none.mpr (by omega)]
  · rintro rfl
    exact ratio_self a

theorem scoreOf_le_one (t n : List Char) : scoreOf t n ≤ 1 := by
  unfold scoreOf
  dsimp only
  split
  · exact max_le (ratio_le_one t n) (by norm_num)
  · exact ratio_le_one t n

theorem scoreOf_self (t : List Char) : scoreOf t t = 1 := by
  unfold scoreOf
  dsimp only
  rw [ratio_self]
  split
  · exact max_eq_left (by norm_num)
  · rfl

theorem scoreOf_eq_one_iff (t n : List Char) : scoreOf t n = 1 ↔ n = t := by
  constructor
  · intro h
    unfold scoreOf at h
    dsimp only at h
    have hr : ratio t n = 1 := by
      split at h
      · have h1 : (1 : ℚ) ≤ max (ratio t n) (4 / 5) := le_of_eq h.symm
        rcases le_max_iff.mp h1 with h2 | h2
        · exact le_antisymm (ratio_le_one t n) h2
        · norm_num at h2
      · exact h
    exact ((ratio_eq_one_iff t n).mp hr).symm
  · rintro rfl
    exact scoreOf_self _

theorem sortScored_sorted (ms : List (String × ℚ)) :
    (sortScored ms).Sorted (fun x y => y.2 ≤ x.2) := by
  haveI h1 : IsTotal (String × ℚ) (fun x y => y.2 ≤ x.2) := ⟨fun a b => le_total b.2 a.2⟩
  haveI h2 : IsTrans (String × ℚ) (fun x y => y.2 ≤ x.2) := ⟨fun a b c hab hbc => le_trans hbc hab⟩
  exact List.sorted_insertionSort _ ms

theorem sortScored_perm (ms : List (String × ℚ)) : List.Perm (sortScored ms) ms :=
  List.perm_insertionSort _ ms

theorem fuzzyMatches_mem (children : String → List String) (thr : ℚ) (term : String)
    (p : String × ℚ) (hp : p ∈ fuzzyMatches children thr term) :
    ∃ cn ∈ candidatesOf children, thr ≤ scoreOf (lowerL term.data) (lowerL cn.2.data)
      ∧ p = (cn.1 ++ "/" ++ cn.2, scoreOf (lowerL term.data) (lowerL cn.2.data)) := by
  obtain ⟨cn, hcn, hfn⟩ := List.mem_filterMap.mp hp
  dsimp only at hfn
  split at hfn
  · next hcond =>
    exact ⟨cn, hcn, hcond, (Option.some.injEq _ _ ▸ hfn).symm⟩
  · exact absurd hfn (by simp)

/-- C4 (confirmed). Fuzzy-search scoring: a candidate whose lowercased
name equals the lowercased term scores exactly 1 and (when it is the only
such candidate and the threshold is ≤ 1) is ranked first; a candidate
containing the term as a substring scores at least 0.8 whatever the
edit-distance ratio; every returned result comes from a candidate scoring
at least the threshold; and the results are sorted by score descending. -/
theorem c4_fuzzy_search_scoring (children : String → List String) (thr : ℚ) (term : String) :
    (∀ name : String, lowerL name.data = lowerL term.data →
      scoreOf (lowerL term.data) (lowerL name.data) = 1)
    ∧ (∀ name : String, isInfixB (lowerL term.data) (lowerL name.data) = true →
        4 / 5 ≤ scoreOf (lowerL term.data) (lowerL name.data))
    ∧ (∀ x ∈ _fuzzy_search children thr term, ∃ cn ∈ candidatesOf children,
        x = cn.1 ++ "/" ++ cn.2 ∧ thr ≤ scoreOf (lowerL term.data) (lowerL cn.2.data))
    ∧ ((sortScored (fuzzyMatches children thr term)).Sorted (fun x y => y.2 ≤ x.2))
    ∧ (thr ≤ 1 → ∀ cat name : String, (cat, name) ∈ candidatesOf children →
        lowerL name.data = lowerL term.data →
        (∀ cn ∈ candidatesOf children, lowerL cn.2.data = lowerL term.data →
          cn = (cat, name)) →
        (_fuzzy_search children thr term).head? = some (cat ++ "/" ++ name)) := by
  refine ⟨?_, ?_, ?_, sortScored_sorted _, ?_⟩
  · intro name h
    rw [h]
    exact scoreOf_self _
  · intro name h
    unfold scoreOf
    dsimp only
    rw [if_pos h]
    exact le_max_right _ _
  · intro x hx
    obtain ⟨p, hpS, rfl⟩ := List.mem_map.mp hx
    have hpM : p ∈ fuzzyMatches children thr term := (sortScored_perm _).subset hpS
    obtain ⟨cn, hcn, hthr, hpe⟩ := fuzzyMatches_mem children thr term p hpM
    exact ⟨cn, hcn, by rw [hpe], hthr⟩
  · intro hthr cat name hmem hlow huniq
    have hs1 : scoreOf (lowerL term.data) (lowerL name.data) = 1 := by
      rw [hlow]
      exact scoreOf_self _
    have hpair : (cat ++ "/" ++ name, (1 : ℚ)) ∈ fuzzyMatches children thr term := by
      refine List.mem_filterMap.mpr ⟨(cat, name), hmem, ?_⟩
      dsimp only
      rw [hs1, if_pos hthr]
    have hmemS := (sortScored_perm (fuzzyMatches children thr term)).mem_iff.mpr hpair
    cases hS : sortScored (fuzzyMatches children thr term) with
    | nil => rw [hS] at hmemS; simp at hmemS
    | cons hd tl =>
      have hhdM : hd ∈ fuzzyMatches children thr term :=
        (sortScored_perm _).subset (hS ▸ List.mem_cons_self hd tl)
      obtain ⟨cn, hcn, _, hhde⟩ := fuzzyMatches_mem children thr term hd hhdM
      have hhd1 : hd.1 = cat ++ "/" ++ name := by
        rw [hS] at hmemS
        rcases List.mem_cons.mp hmemS with heq | htl
        · rw [← heq]
        · have hsorted := sortScored_sorted (fuzzyMatches children thr term)
          rw [hS] at hsorted
          have hge : (1 : ℚ) ≤ hd.2 := (List.sorted_cons.mp hsorted).1 _ htl
          have hle : hd.2 ≤ 1 := by
            rw [hhde]
            exact scoreOf_le_one _ _
          have hhd2 : scoreOf (lowerL term.data) (lowerL cn.2.data) = 1 := by
            have : hd.2 = scoreOf (lowerL term.data) (lowerL cn.2.data) := by rw [hhde]
            rw [← this]
            exact le_antisymm hle hge
          have hcne : lowerL cn.2.data = lowerL term.data :=
            (scoreOf_eq_one_iff _ _).mp hhd2
          have := huniq cn hcn hcne
          rw [hhde, this]
      show ((sortScored (fuzzyMatches children thr term)).map Prod.fst).head? = _
      rw [hS]
      simp [hhd1]

/-- C4 witness: over a workspace whose `apps` root holds `demo` and
`demoapp`, searching `demo` at threshold 0.6 ranks `apps/demo` first. -/
theorem c4_fuzzy_search_scoring_witness :
    ((3 : ℚ) / 5 ≤ 1)
    ∧ (_fuzzy_search (fun c => if c = "apps" then ["demo", "demoapp"] else [])
        (3 / 5) "demo").head? = some ("apps" ++ "/" ++ "demo") := by
  refine ⟨by norm_num,
    (c4_fuzzy_search_scoring (fun c => if c = "apps" then ["demo", "demoapp"] else [])
      (3 / 5) "demo").2.2.2.2 (by norm_num) "apps" "demo" ?_ ?_ ?_⟩
  · decide
  · decide
  · decide

/-! ## Lemmas for the migration round-trip -/

theorem mkdirParentsRev_noop (f : Fs) :
    ∀ rev : Path, (∀ q : Path, q <+: rev.reverse → f q = some .dirO) →
      mkdirParentsRev f rev = some f := by
  intro rev
  induction rev with
  | nil =>
    intro h
    have h0 : f [] = some .dirO := h [] (by simp)
    simp [mkdirParentsRev, h0]
  | cons x rest ih =>
    intro h
    have hrest : ∀ q : Path, q <+: rest.reverse → f q = some .dirO := by
      intro q hq
      refine h q (hq.trans ?_)
      rw [List.reverse_cons]
      exact List.prefix_append _ _
    rw [mkdirParentsRev, ih hrest]
    have hself : f ((x :: rest).reverse) = some .dirO := h _ (List.prefix_refl _)
    rw [List.reverse_cons] at hself
    simp [hself]

theorem mkdirParents_noop (f : Fs) (p : Path)
    (h : ∀ q : Path, q <+: p → f q = some .dirO) : mkdirParents f p = some f := by
  unfold mkdirParents
  exact mkdirParentsRev_noop f p.reverse (by simpa using h)

theorem renameF_eq (f : Fs) (s d : Path) (hs : s ≠ []) (hd : d ≠ [])
    (hsrc : (f s).isSome) (hpar : f d.dropLast = some .dirO) (hdst : f d = none) :
    renameF f s d = some (moveFn f s d) := by
  obtain ⟨v, hv⟩ := Option.isSome_iff_exists.mp hsrc
  simp [renameF, hs, hd, hv, hpar, hdst]

theorem shutilMoveF_rename (f : Fs) (s d : Path) (hs : s ≠ []) (hd : d ≠ [])
    (hsrc : (f s).isSome) (hpar : f d.dropLast = some .dirO) (hdst : f d = none) :
    shutilMoveF f s d = some (moveFn f s d) := by
  unfold shutilMoveF
  rw [if_neg (by simp [hdst])]
  exact renameF_eq f s d hs hd hsrc hpar hdst

theorem moveFn_at_dst (f : Fs) (s d q : Path) (hd : d <+: q) :
    moveFn f s d q = f (s ++ q.drop d.length) := by
  unfold moveFn
  rw [if_pos (by simpa [List.isPrefixOf_iff_prefix] using hd)]

theorem moveFn_at_src (f : Fs) (s d q : Path) (hd : ¬ d <+: q) (hs : s <+: q) :
    moveFn f s d q = none := by
  unfold moveFn
  rw [if_neg (by simpa [List.isPrefixOf_iff_prefix] using hd),
    if_pos (by simpa [List.isPrefixOf_iff_prefix] using hs)]

theorem moveFn_frame (f : Fs) (s d q : Path) (hd : ¬ d <+: q) (hs : ¬ s <+: q) :
    moveFn f s d q = f q := by
  unfold moveFn
  rw [if_neg (by simpa [List.isPrefixOf_iff_prefix] using hd),
    if_neg (by simpa [List.isPrefixOf_iff_prefix] using hs)]

theorem moveFn_reverse (f : Fs) (s d : Path) (hok : MoveOK f s d) (hsrc : (f s).isSome) :
    shutilMoveF (moveFn f s d) d s = some f := by
  obtain ⟨hs, hd, hsd, hds, hsub, hdpar, hspar⟩ := hok
  have hfs : moveFn f s d s = none := moveFn_at_src f s d s hds (List.prefix_refl s)
  have hfd : moveFn f s d d = f s := by
    rw [moveFn_at_dst f s d d (List.prefix_refl d)]
    simp
  have hspfx : ¬ s <+: s.dropLast := by
    intro hpre
    have := hpre.length_le
    have : s.dropLast.length = s.length - 1 := List.length_dropLast s
    have : 0 < s.length := List.length_pos.mpr hs
    omega
  have hdpfx : ¬ d <+: s.dropLast := by
    intro hpre
    exact hds (hpre.trans (List.dropLast_prefix s))
  have hfpar : moveFn f s d s.dropLast = some .dirO := by
    rw [moveFn_frame f s d s.dropLast hdpfx hspfx]
    exact hspar _ (List.prefix_refl _)
  unfold shutilMoveF
  rw [if_neg (by simp [hfs])]
  rw [renameF_eq (moveFn f s d) d s hd hs (by simp [hfd, hsrc]) hfpar hfs]
  congr 1
  funext q
  by_cases hq1 : s <+: q
  · obtain ⟨r, rfl⟩ := hq1
    have hnd : ¬ d <+: s ++ r := by
      intro hpre
      rcases List.prefix_or_prefix_of_prefix hpre (List.prefix_append s r) with h | h
      · exact hds h
      · exact hsd h
    rw [moveFn_at_dst (moveFn f s d) d s (s ++ r) (List.prefix_append s r)]
    rw [List.drop_left]
    rw [moveFn_at_dst f s d (d ++ r) (List.prefix_append d r)]
    rw [List.drop_left]
  · by_cases hq2 : d <+: q
    · rw [moveFn_at_src (moveFn f s d) d s q hq1 hq2]
      exact (hsub q hq2).symm
    · rw [moveFn_frame (moveFn f s d) d s q hq1 hq2]
      exact moveFn_frame f s d q hq2 hq1

theorem execStep_skip (f : Fs) (acc : List (Path × Path)) (e : Path × Path)
    (h : (f e.1).isSome = false) : execStep (f, acc) e = (f, acc) := by
  simp [execStep, h]

theorem execStep_move (f : Fs) (acc : List (Path × Path)) (e : Path × Path)
    (hsrc : (f e.1).isSome) (hok : MoveOK f e.1 e.2) :
    execStep (f, acc) e = (moveFn f e.1 e.2, acc ++ [e]) := by
  obtain ⟨h1, h2, h3, h4, h5, h6, h7⟩ := hok
  have hmk : mkdirParents f e.2.dropLast = some f := mkdirParents_noop f _ h6
  have hmv : shutilMoveF f e.1 e.2 = some (moveFn f e.1 e.2) :=
    shutilMoveF_rename f e.1 e.2 h1 h2 hsrc (h6 _ (List.prefix_refl _))
      (h5 _ (List.prefix_refl _))
  simp [execStep, hsrc, hmk, hmv]

theorem execStep_acc (f : Fs) (acc : List (Path × Path)) (e : Path × Path) :
    execStep (f, acc) e = ((execStep (f, []) e).1, acc ++ (execStep (f, []) e).2) := by
  unfold execStep
  dsimp only
  cases hs : (f e.1).isSome with
  | false => simp
  | true =>
    simp only [if_true]
    cases hmk : mkdirParents f e.2.dropLast with
    | none => simp
    | some f' =>
      cases hmv : shutilMoveF f' e.1 e.2 with
      | none => simp [hmv]
      | some f'' => simp [hmv]

theorem execFold_acc (es : List (Path × Path)) :
    ∀ (f : Fs) (acc : List (Path × Path)),
      es.foldl execStep (f, acc)
        = ((es.foldl execStep (f, [])).1, acc ++ (es.foldl execStep (f, [])).2) := by
  induction es with
  | nil => intro f acc; simp
  | cons e rest ih =>
    intro f acc
    rw [List.foldl_cons, List.foldl_cons]
    rw [execStep_acc f acc e]
    rw [ih (execStep (f, []) e).1 (acc ++ (execStep (f, []) e).2)]
    conv_rhs => rw [show execStep (f, []) e = ((execStep (f, []) e).1, (execStep (f, []) e).2)
      from rfl]
    rw [ih (execStep (f, []) e).1 (execStep (f, []) e).2]
    simp

theorem exec_rollback_of_safe : ∀ (es : List (Path × Path)) (f : Fs), Safe f es →
    rollback (es.foldl execStep (f, [])).1 (es.foldl execStep (f, [])).2 = f := by
  intro es
  induction es with
  | nil =>
    intro f _
    simp [rollback]
  | cons e rest ih =>
    intro f hsafe
    obtain ⟨hmove, hrest⟩ := hsafe
    rw [List.foldl_cons]
    cases hs : (f e.1).isSome with
    | false =>
      rw [execStep_skip f [] e hs]
      have hstep : execStep1 f e = f := by
        unfold execStep1
        rw [execStep_skip f [] e hs]
      rw [hstep] at hrest
      exact ih f hrest
    | true =>
      have hok := hmove hs
      have hstep : execStep1 f e = moveFn f e.1 e.2 := by
        unfold execStep1
        rw [execStep_move f [] e hs hok]
      rw [execStep_move f [] e hs hok]
      simp only [List.nil_append]
      rw [hstep] at hrest
      rw [execFold_acc rest (moveFn f e.1 e.2) [e]]
      unfold rollback
      rw [List.reverse_append, List.foldl_append]
      have hih := ih (moveFn f e.1 e.2) hrest
      unfold rollback at hih
      rw [hih]
      simp only [List.reverse_cons, List.reverse_nil, List.nil_append, List.foldl_cons,
        List.foldl_nil]
      unfold rollbackStep
      rw [moveFn_reverse f e.1 e.2 hok hs]

theorem singleton_prefix_cons {a b : String} {l : List String} :
    [a] <+: (b :: l) ↔ a = b := by
  rw [List.cons_prefix_cons]
  simp

theorem prefix_of_singleton {q : Path} {a : String} (h : q <+: [a]) :
    q = [] ∨ q = [a] := by
  cases q with
  | nil => exact Or.inl rfl
  | cons y t =>
    right
    rw [List.cons_prefix_cons] at h
    obtain ⟨rfl, ht⟩ := h
    rw [List.prefix_nil] at ht
    rw [ht]

theorem goodE_shape (e : Path × Path) (h : goodE e = true) :
    ∃ o c x, e.1 = [o] ∧ e.2 = [c, x] ∧ c ∈ fourNames ∧ o ∉ fourNames
      ∧ o ≠ "experiments" ∧ o ≠ "archive" := by
  obtain ⟨s, d⟩ := e
  cases s with
  | nil => simp [goodE] at h
  | cons o s' =>
    cases s' with
    | cons y t => simp [goodE] at h
    | nil =>
      cases d with
      | nil => simp [goodE] at h
      | cons c d' =>
        cases d' with
        | nil => simp [goodE] at h
        | cons x d'' =>
          cases d'' with
          | cons z w => simp [goodE] at h
          | nil =>
            simp only [goodE, Bool.and_eq_true, decide_eq_true_eq, Bool.not_eq_true',
              beq_eq_false_iff_ne, ne_eq, decide_eq_false_iff_not] at h
            exact ⟨o, c, x, rfl, rfl, h.1.1.1, h.1.1.2, h.1.2, h.2⟩

theorem moveOK_of_inv (f : Fs) (e : Path × Path) (es : List (Path × Path))
    (hinv : Inv f (e :: es)) (hsrc : (f e.1).isSome) : MoveOK f e.1 e.2 := by
  obtain ⟨hroot, hfour, hdead, hclass, hsub, hpw⟩ := hinv
  rcases hclass e (by simp) with hg | hd
  · obtain ⟨o, c, x, he1, he2, hcf, hof, hoe, hoa⟩ := goodE_shape e hg
    refine ⟨by simp [he1], by simp [he2], ?_, ?_, hsub e (by simp) hg, ?_, ?_⟩
    · rw [he1, he2]
      intro hpre
      rw [singleton_prefix_cons] at hpre
      exact hof (hpre ▸ hcf)
    · rw [he1, he2]
      intro hpre
      have := hpre.length_le
      simp at this
    · rw [he2]
      intro q hq
      rcases prefix_of_singleton (by simpa using hq) with rfl | rfl
      · exact hroot
      · exact hfour c hcf
    · rw [he1]
      intro q hq
      have hq0 : q = [] := by
        simpa [List.prefix_nil] using hq
      rw [hq0]
      exact hroot
  · exfalso
    rw [hdead e.1 hd] at hsrc
    simp at hsrc

theorem inv_step (f : Fs) (e : Path × Path) (es : List (Path × Path))
    (hinv : Inv f (e :: es)) : Inv (execStep1 f e) es := by
  obtain ⟨hroot, hfour, hdead, hclass, hsub, hpw⟩ := hinv
  cases hs : (f e.1).isSome with
  | false =>
    have hstep : execStep1 f e = f := by
      unfold execStep1
      rw [execStep_skip f [] e hs]
    rw [hstep]
    exact ⟨hroot, hfour, hdead, fun e' he' => hclass e' (by simp [he']),
      fun e' he' => hsub e' (by simp [he']), (List.pairwise_cons.mp hpw).2⟩
  | true =>
    have hok := moveOK_of_inv f e es ⟨hroot, hfour, hdead, hclass, hsub, hpw⟩ hs
    have hstep : execStep1 f e = moveFn f e.1 e.2 := by
      unfold execStep1
      rw [execStep_move f [] e hs hok]
    rcases hclass e (by simp) with hg | hd
    swap
    · exfalso
      rw [hdead e.1 hd] at hs
      simp at hs
    obtain ⟨o, c, x, he1, he2, hcf, hof, hoe, hoa⟩ := goodE_shape e hg
    rw [hstep, he1, he2]
    refine ⟨?_, ?_, ?_, fun e' he' => hclass e' (by simp [he']), ?_,
      (List.pairwise_cons.mp hpw).2⟩
    · rw [moveFn_frame _ _ _ _ (by simp [List.prefix_nil]) (by simp [List.prefix_nil])]
      exact hroot
    · intro c' hc'
      rw [moveFn_frame]
      · exact hfour c' hc'
      · intro hpre
        have := hpre.length_le
        simp at this
      · intro hpre
        rw [singleton_prefix_cons] at hpre
        exact hof (hpre ▸ hc')
    · intro sd hsd
      have hval := hdead sd hsd
      simp only [deadSrcs, List.mem_cons, List.mem_singleton, List.not_mem_nil] at hsd
      rcases hsd with rfl | hsd
      · rw [moveFn_frame]
        · exact hval
        · intro hpre
          have := hpre.length_le
          simp at this
        · intro hpre
          rw [singleton_prefix_cons] at hpre
          exact hoe hpre
      · rcases hsd with rfl | hsd
        · rw [moveFn_frame]
          · exact hval
          · intro hpre
            have := hpre.length_le
            simp at this
          · intro hpre
            rw [singleton_prefix_cons] at hpre
            exact hoa hpre
        · simp at hsd
    · intro e' he' hg' q hq
      obtain ⟨o', c', x', he1', he2', hcf', hof', _, _⟩ := goodE_shape e' hg'
      rw [he2'] at hq
      have hq2 : e'.2 <+: q := by
        rw [he2']
        exact hq
      rw [moveFn_frame]
      · exact hsub e' (by simp [he']) hg' q hq2
      · intro hpre
        have h1 := List.prefix_iff_eq_take.mp hpre
        have h2 := List.prefix_iff_eq_take.mp hq
        have hlen : ([c, x] : Path).length = ([c', x'] : Path).length := by simp
        have heq : ([c, x] : Path) = [c', x'] := by
          rw [h1, h2]
          congr 1
        have hne := (List.pairwise_cons.mp hpw).1 e' he'
        rw [he2, he2'] at hne
        exact hne heq
      · intro hpre
        obtain ⟨t, rfl⟩ := hpre
        rw [List.singleton_append, List.cons_prefix_cons] at hq
        exact hof (hq.1 ▸ hcf')

theorem safe_of_inv : ∀ (es : List (Path × Path)) (f : Fs), Inv f es → Safe f es := by
  intro es
  induction es with
  | nil =>
    intro f _
    trivial
  | cons e rest ih =>
    intro f hinv
    exact ⟨fun hs => moveOK_of_inv f e rest hinv hs, ih _ (inv_step f e rest hinv)⟩

theorem inv_exec_fold : ∀ (es : List (Path × Path)) (f : Fs), Inv f es →
    Inv ((es.foldl execStep (f, [])).1) [] := by
  intro es
  induction es with
  | nil =>
    intro f h
    exact ⟨h.1, h.2.1, h.2.2.1, by simp, by simp, by simp⟩
  | cons e rest ih =>
    intro f hinv
    rw [List.foldl_cons]
    have hsplit : execStep (f, []) e = (execStep1 f e, (execStep (f, []) e).2) := rfl
    rw [hsplit, execFold_acc rest (execStep1 f e) ((execStep (f, []) e).2)]
    exact ih (execStep1 f e) (inv_step f e rest hinv)

theorem fourAdded_frame (f0 : Fs) (p : Path) (h1 : p ≠ ["work"]) (h2 : p ≠ ["lab"])
    (h3 : p ≠ ["research"]) (h4 : p ≠ ["resources"]) : fourAdded f0 p = f0 p := by
  simp [fourAdded, setNode, h1, h2, h3, h4]

theorem execute_eq (f0 : Fs) (h : Hyp f0) :
    execute f0 = some (structure_map.foldl execStep (fourAdded f0, [])) := by
  obtain ⟨hroot, hw, hl, hr, hres, hexp, harc⟩ := h
  have h1 : mkdirTop f0 ["work"] = some (setNode f0 ["work"] .dirO) := by
    unfold mkdirTop
    rw [hw ["work"] (List.prefix_refl _)]
    simp [hroot]
  have h2 : mkdirTop (setNode f0 ["work"] .dirO) ["lab"]
      = some (setNode (setNode f0 ["work"] .dirO) ["lab"] .dirO) := by
    unfold mkdirTop
    have hv : setNode f0 ["work"] .dirO ["lab"] = none := by
      rw [show setNode f0 ["work"] .dirO ["lab"] = f0 ["lab"] by simp [setNode]]
      exact hl ["lab"] (List.prefix_refl _)
    rw [hv]
    have hp : setNode f0 ["work"] .dirO [] = some .dirO := by
      rw [show setNode f0 ["work"] .dirO [] = f0 [] by simp [setNode]]
      exact hroot
    simp [hp]
  have h3 : mkdirTop (setNode (setNode f0 ["work"] .dirO) ["lab"] .dirO) ["research"]
      = some (setNode (setNode (setNode f0 ["work"] .dirO) ["lab"] .dirO) ["research"] .dirO) := by
    unfold mkdirTop
    have hv : setNode (setNode f0 ["work"] .dirO) ["lab"] .dirO ["research"] = none := by
      rw [show setNode (setNode f0 ["work"] .dirO) ["lab"] .dirO ["research"]
          = f0 ["research"] by simp [setNode]]
      exact hr ["research"] (List.prefix_refl _)
    rw [hv]
    have hp : setNode (setNode f0 ["work"] .dirO) ["lab"] .dirO [] = some .dirO := by
      rw [show setNode (setNode f0 ["work"] .dirO) ["lab"] .dirO []
          = f0 [] by simp [setNode]]
      exact hroot
    simp [hp]
  have h4 : mkdirTop (setNode (setNode (setNode f0 ["work"] .dirO) ["lab"] .dirO)
        ["research"] .dirO) ["resources"]
      = some (fourAdded f0) := by
    unfold mkdirTop
    have hv : setNode (setNode (setNode f0 ["work"] .dirO) ["lab"] .dirO) ["research"] .dirO
        ["resources"] = none := by
      rw [show setNode (setNode (setNode f0 ["work"] .dirO) ["lab"] .dirO) ["research"] .dirO
          ["resources"] = f0 ["resources"] by simp [setNode]]
      exact hres ["resources"] (List.prefix_refl _)
    rw [hv]
    have hp : setNode (setNode (setNode f0 ["work"] .dirO) ["lab"] .dirO) ["research"] .dirO []
        = some .dirO := by
      rw [show setNode (setNode (setNode f0 ["work"] .dirO) ["lab"] .dirO) ["research"] .dirO []
          = f0 [] by simp [setNode]]
      exact hroot
    simp [hp, fourAdded]
  unfold execute
  rw [h1]
  simp only [Option.bind_eq_bind, Option.some_bind]
  rw [h2]
  simp only [Option.some_bind]
  rw [h3]
  simp only [Option.some_bind]
  rw [h4]
  simp only [Option.some_bind]

theorem inv_fourAdded (f0 : Fs) (h : Hyp f0) : Inv (fourAdded f0) structure_map := by
  obtain ⟨hroot, hw, hl, hr, hres, hexp, harc⟩ := h
  have hgen : ∀ (c x : String), (∀ q, [c] <+: q → f0 q = none) →
      ∀ q : Path, [c, x] <+: q → fourAdded f0 q = none := by
    intro c x hc q hq
    obtain ⟨t, rfl⟩ := hq
    rw [fourAdded_frame f0 _ (by simp) (by simp) (by simp) (by simp)]
    exact hc _ ⟨x :: t, rfl⟩
  refine ⟨?_, ?_, ?_, by decide, ?_, by decide⟩
  · rw [fourAdded_frame f0 [] (by decide) (by decide) (by decide) (by decide)]
    exact hroot
  · intro c hc
    simp only [fourNames, List.mem_cons, List.not_mem_nil, or_false] at hc
    rcases hc with rfl | rfl | rfl | rfl <;> simp [fourAdded, setNode]
  · intro sd hsd
    simp only [deadSrcs, List.mem_cons, List.not_mem_nil, or_false] at hsd
    rcases hsd with rfl | rfl
    · rw [fourAdded_frame f0 _ (by decide) (by decide) (by decide) (by decide)]
      exact hexp
    · rw [fourAdded_frame f0 _ (by decide) (by decide) (by decide) (by decide)]
      exact harc
  · intro e he hg q hq
    simp only [structure_map, List.mem_cons, List.not_mem_nil, or_false] at he
    rcases he with rfl | rfl | rfl | rfl | rfl | rfl | rfl | rfl | rfl
    · exact hgen "work" "apps" hw q hq
    · exact hgen "work" "bots" hw q hq
    · exact hgen "work" "tools" hw q hq
    · exact hgen "work" "contracts" hw q hq
    · exact absurd hg (by decide)
    · exact hgen "research" "defi" hr q hq
    · exact hgen "research" "strategies" hr q hq
    · exact absurd hg (by decide)
    · exact hgen "resources" "downloads" hres q hq

/-- C1 counterexample: on a workspace holding only an `apps` folder, every
move succeeds and no filesystem error occurs, yet after `execute` followed
by `rollback` the path set differs from the original: `work` (created by
`execute`, never removed by `rollback`) exists afterwards but did not
before.  The claimed exact restoration is false. -/
theorem c1_not_exact_restore :
    (execute wsA).map (fun pr => isDirB (rollback pr.1 pr.2) ["work"]) = some true
    ∧ isDirB wsA ["work"] = false := by
  exact ⟨by decide, by decide⟩

/-- C1 (corrected). For a workspace whose root contains none of
`work`/`lab`/`research`/`resources` (so the four creations are fresh) and
neither `experiments` nor `archive` (the two sources whose mapped
destination is itself a created directory, which `shutil.move` would nest
and `rollback` would then rename away), `execute` followed by `rollback`
restores every original path and file content exactly, except that the
four created top-level directories remain. -/
theorem c1_roundtrip_modulo_created_dirs (f0 : Fs) (h : Hyp f0) :
    ∃ pr : Fs × List (Path × Path), execute f0 = some pr
      ∧ (∀ p : Path, isDirB (rollback pr.1 pr.2) p
          = (isDirB f0 p || decide (p ∈ fourPaths)))
      ∧ (∀ p : Path, readFileF (rollback pr.1 pr.2) p = readFileF f0 p) := by
  have hrb : rollback (structure_map.foldl execStep (fourAdded f0, [])).1
      (structure_map.foldl execStep (fourAdded f0, [])).2 = fourAdded f0 :=
    exec_rollback_of_safe structure_map (fourAdded f0)
      (safe_of_inv structure_map (fourAdded f0) (inv_fourAdded f0 h))
  have h' := h
  obtain ⟨hroot, hw, hl, hr, hres, hexp, harc⟩ := h'
  refine ⟨structure_map.foldl execStep (fourAdded f0, []), execute_eq f0 h, ?_, ?_⟩
  · intro p
    rw [hrb]
    by_cases hp : p ∈ fourPaths
    · have hdir : fourAdded f0 p = some .dirO := by
        simp only [fourPaths, List.mem_cons, List.not_mem_nil, or_false] at hp
        rcases hp with rfl | rfl | rfl | rfl <;> simp [fourAdded, setNode]
      simp [isDirB, hdir, hp]
    · have hfr : fourAdded f0 p = f0 p := by
        simp only [fourPaths, List.mem_cons, List.not_mem_nil, or_false] at hp
        push_neg at hp
        exact fourAdded_frame f0 p hp.1 hp.2.1 hp.2.2.1 hp.2.2.2
      simp [isDirB, hfr, hp]
  · intro p
    rw [hrb]
    by_cases hp : p ∈ fourPaths
    · have hdir : fourAdded f0 p = some .dirO := by
        simp only [fourPaths, List.mem_cons, List.not_mem_nil, or_false] at hp
        rcases hp with rfl | rfl | rfl | rfl <;> simp [fourAdded, setNode]
      have hnone : f0 p = none := by
        simp only [fourPaths, List.mem_cons, List.not_mem_nil, or_false] at hp
        rcases hp with rfl | rfl | rfl | rfl
        · exact hw _ (List.prefix_refl _)
        · exact hl _ (List.prefix_refl _)
        · exact hr _ (List.prefix_refl _)
        · exact hres _ (List.prefix_refl _)
      simp [readFileF, hdir, hnone]
    · have hfr : fourAdded f0 p = f0 p := by
        simp only [fourPaths, List.mem_cons, List.not_mem_nil, or_false] at hp
        push_neg at hp
        exact fourAdded_frame f0 p hp.1 hp.2.1 hp.2.2.1 hp.2.2.2
      simp [readFileF, hfr]

/-- C1 witness: the round-trip property instantiated on the concrete
`apps`-only workspace. -/
theorem c1_roundtrip_modulo_created_dirs_witness :
    Hyp wsA
    ∧ ∃ pr : Fs × List (Path × Path), execute wsA = some pr
      ∧ (∀ p : Path, isDirB (rollback pr.1 pr.2) p
          = (isDirB wsA p || decide (p ∈ fourPaths)))
      ∧ (∀ p : Path, readFileF (rollback pr.1 pr.2) p = readFileF wsA p) := by
  have hyp : Hyp wsA := by
    refine ⟨rfl, ?_, ?_, ?_, ?_, rfl, rfl⟩ <;>
      · rintro q ⟨t, rfl⟩
        simp [wsA]
  exact ⟨hyp, c1_roundtrip_modulo_created_dirs wsA hyp⟩

/-- C10 counterexample: on a workspace holding an `experiments` folder,
`shutil.move('experiments', 'lab')` nests it at `lab/experiments` (the
destination directory exists), and `rollback` then renames the whole
`lab` directory back to `experiments` — so after execute + rollback `lab`
does *not* exist, refuting "rollback never removes these directories /
the four directories exist after execute followed by rollback". -/
theorem c10_lab_removed_by_rollback :
    (execute wsExp).map (fun pr => isDirB (rollback pr.1 pr.2) ["lab"]) = some false
    ∧ wsExp ["lab"] = none := by
  exact ⟨by decide, by decide⟩

/-- C10 (corrected). `execute` unconditionally creates the four top-level
directories before any move, even when sources are absent; and provided
neither `experiments` nor `archive` exists (rolling either back renames
the created `lab`/`resources` directory away), the four directories all
exist after `execute` and still exist after `rollback`. -/
theorem c10_four_dirs_survive (f0 : Fs) (h : Hyp f0) :
    ∃ pr : Fs × List (Path × Path), execute f0 = some pr
      ∧ (∀ c ∈ fourNames, isDirB pr.1 [c] = true)
      ∧ (∀ c ∈ fourNames, isDirB (rollback pr.1 pr.2) [c] = true) := by
  have hinv := inv_fourAdded f0 h
  have hmid := inv_exec_fold structure_map (fourAdded f0) hinv
  have hrb := exec_rollback_of_safe structure_map (fourAdded f0)
    (safe_of_inv structure_map (fourAdded f0) hinv)
  refine ⟨structure_map.foldl execStep (fourAdded f0, []), execute_eq f0 h, ?_, ?_⟩
  · intro c hc
    have hd := hmid.2.1 c hc
    simp [isDirB, hd]
  · intro c hc
    rw [hrb]
    have hdir : fourAdded f0 [c] = some .dirO := hinv.2.1 c hc
    simp [isDirB, hdir]

/-- C10 witness: the four-directory property instantiated on the concrete
`apps`-only workspace. -/
theorem c10_four_dirs_survive_witness :
    Hyp wsA
    ∧ ∃ pr : Fs × List (Path × Path), execute wsA = some pr
      ∧ (∀ c ∈ fourNames, isDirB pr.1 [c] = true)
      ∧ (∀ c ∈ fourNames, isDirB (rollback pr.1 pr.2) [c] = true) := by
  have hyp : Hyp wsA := by
    refine ⟨rfl, ?_, ?_, ?_, ?_, rfl, rfl⟩ <;>
      · rintro q ⟨t, rfl⟩
        simp [wsA]
  exact ⟨hyp, c10_four_dirs_survive wsA hyp⟩

end Dojo
